import Mathlib

/-!
Verification development for the iterative prompt-revision engine of
`bertprompt/lm.py`.  The Python source is shallowly embedded: pure helper
functions become Lean functions, the stateful revision loop becomes a step
function on an explicit state record, Python `float` scores are modelled as
rationals, and fallible Python operations (raising `TypeError`,
`AssertionError`, `ValueError`) return `Except`.  The scoring backend
(`transformers` model plus tokenizer) is out of scope per the design document
and is abstracted as function parameters.

The code builds regular expressions by interpolating vocabulary terms
unescaped into `re.findall` patterns, so the embedding includes a small
evaluator for the regex fragment those patterns can use: literal characters,
`.`, character classes `[...]`, the word-boundary assertion `\b`, and a
top-level alternation `|`.  All recursion is structural (fuel-bounded where
the Python scan consumes a variable number of characters) so that every
definition evaluates by `decide`.
-/

set_option maxRecDepth 10000
set_option linter.unusedVariables false

/-- Atom of the regex fragment that `lm.py` interpolates into `re.findall`
patterns: a literal character, the any-character dot, a character class, or
the zero-width word-boundary assertion `\b`. -/
inductive RAtom where
  | lit (c : Char)
  | dot
  | cls (cs : List Char)
  | wordB
deriving DecidableEq

/-- Python `\w` (ASCII range): letters, digits and underscore. -/
def isWordChar (c : Char) : Bool := c.isAlphanum || c = '_'

/-- Word-character test lifted to an optional character (used for the
boundary context just before the scan position; `none` means the edge of the
string, which is never a word character). -/
def isWordCharOpt : Option Char → Bool
  | none => false
  | some c => isWordChar c

/-- Prepend an atom to the first alternative of a parsed pattern. -/
def consAtom (a : RAtom) : List (List RAtom) → List (List RAtom)
  | [] => [[a]]
  | br :: alts => (a :: br) :: alts

/-- Parse the regex fragment into a list of `|`-alternatives, each an atom
sequence.  The boolean flag says whether we are inside a `[...]` class and
the accumulator collects the class characters seen so far. -/
def parseRegexAux : Bool → List Char → List Char → List (List RAtom)
  | false, _, [] => [[]]
  | false, _, c :: rest =>
    if c = '|' then [] :: parseRegexAux false [] rest
    else if c = '.' then consAtom RAtom.dot (parseRegexAux false [] rest)
    else if c = '\\' then
      match rest with
      | [] => [[RAtom.lit '\\']]
      | d :: rest2 =>
        if d = 'b' then consAtom RAtom.wordB (parseRegexAux false [] rest2)
        else consAtom (RAtom.lit d) (parseRegexAux false [] rest2)
    else if c = '[' then parseRegexAux true [] rest
    else consAtom (RAtom.lit c) (parseRegexAux false [] rest)
  | true, acc, [] => [[RAtom.cls acc.reverse]]
  | true, acc, c :: rest =>
    if c = ']' then consAtom (RAtom.cls acc.reverse) (parseRegexAux false [] rest)
    else parseRegexAux true (acc ++ [c]) rest

/-- Compile a pattern string to its alternatives. -/
def parseRegex (pat : String) : List (List RAtom) := parseRegexAux false [] pat.data

/-- Match one alternative at the current position.  `prev` is the character
just before the position (`none` at the start of the haystack); on success
the matched characters and the remaining suffix are returned. -/
def matchBranch : List RAtom → Option Char → List Char → Option (List Char × List Char)
  | [], _, s => some ([], s)
  | RAtom.wordB :: atoms, prev, s =>
    if isWordCharOpt prev ≠ isWordCharOpt s.head? then matchBranch atoms prev s else none
  | RAtom.lit _ :: _, _, [] => none
  | RAtom.lit c :: atoms, _, x :: s =>
    if x = c then (matchBranch atoms (some x) s).map (fun p => (x :: p.1, p.2)) else none
  | RAtom.dot :: _, _, [] => none
  | RAtom.dot :: atoms, _, x :: s =>
    if x = '\n' then none else (matchBranch atoms (some x) s).map (fun p => (x :: p.1, p.2))
  | RAtom.cls _ :: _, _, [] => none
  | RAtom.cls cs :: atoms, _, x :: s =>
    if cs.contains x then (matchBranch atoms (some x) s).map (fun p => (x :: p.1, p.2)) else none

/-- Try the alternatives left to right, as Python `re` does. -/
def matchAlts : List (List RAtom) → Option Char → List Char → Option (List Char × List Char)
  | [], _, _ => none
  | br :: alts, prev, s =>
    match matchBranch br prev s with
    | some r => some r
    | none => matchAlts alts prev s

/-- The scan loop of `re.findall`: at each position try the pattern; on a
match emit the matched text and continue after it (one character further on
an empty match), otherwise advance one character.  The fuel argument makes
the recursion structural; `s.length` fuel always suffices because every step
consumes at least one character of the haystack. -/
def scanAllGo (alts : List (List RAtom)) : Nat → Option Char → List Char → List (List Char)
  | _, prev, [] =>
    match matchAlts alts prev [] with
    | some p => [p.1]
    | none => []
  | 0, _, _ :: _ => []
  | fuel + 1, prev, c :: rest =>
    match matchAlts alts prev (c :: rest) with
    | some p =>
      if p.1.isEmpty then [] :: scanAllGo alts fuel (some c) rest
      else p.1 :: scanAllGo alts fuel (some (p.1.getLastD c)) p.2
    | none => scanAllGo alts fuel (some c) rest

/-- Embedding of Python `re.findall(pat, s)` for the pattern fragment used
by `lm.py` (patterns have no groups, so `findall` returns the match texts). -/
def reFindall (pat s : String) : List String :=
  (scanAllGo (parseRegex pat) s.data.length none s.data).map List.asString

/-- The pattern string the strict constraint check builds for one term:
`r'\b{}\b'.format(x)` (lm.py line 388), the term interpolated unescaped. -/
def wordBoundPat (x : String) : String := "\\b" ++ x ++ "\\b"

/-- Python `'|'.join(vocab)` (lm.py line 333): terms concatenated with `|`
separators, unescaped. -/
def joinAlt : List String → String
  | [] => ""
  | x :: xs => xs.foldl (fun acc y => acc ++ "|" ++ y) x

/-- Whether `t` occurs at the start of `s` (character-list version of
literal string prefix matching). -/
def listStarts : List Char → List Char → Bool
  | [], _ => true
  | _ :: _, [] => false
  | a :: t, b :: s => a == b && listStarts t s

/-- Python `t in s`: `t` occurs literally as a contiguous substring of `s`. -/
def literalSubstr (t s : String) : Bool :=
  (List.range (s.data.length + 1)).any (fun i => listStarts t.data (s.data.drop i))

/-- Left-to-right non-overlapping count of literal occurrences of `t` in the
haystack, the number of matches `re.findall` reports for a plain-word
pattern.  Fuel-structural; `s.length` fuel always suffices. -/
def countOccGo (t : List Char) : Nat → List Char → Nat
  | _, [] => 0
  | 0, _ :: _ => 0
  | fuel + 1, c :: s2 =>
    if !t.isEmpty && listStarts t (c :: s2) then
      1 + countOccGo t fuel ((c :: s2).drop t.length)
    else countOccGo t fuel s2

/-- Non-overlapping literal occurrence count of `t` in `s`. -/
def countOcc (t s : List Char) : Nat := countOccGo t s.length s

/-- Python `str.replace(t, r)`: replace every non-overlapping occurrence of
`t` left to right.  Fuel-structural; `s.length` fuel always suffices.  The
pattern `t` is never empty where `lm.py` uses this (it is the tokenizer mask
token). -/
def pyReplaceGo (t r : List Char) : Nat → List Char → List Char
  | _, [] => []
  | 0, s => s
  | fuel + 1, c :: s2 =>
    if !t.isEmpty && listStarts t (c :: s2) then
      r ++ pyReplaceGo t r fuel ((c :: s2).drop t.length)
    else c :: pyReplaceGo t r fuel s2

/-- Python `s.replace(t, r)` on strings. -/
def pyReplace (s t r : String) : String :=
  (pyReplaceGo t.data r.data s.data.length s.data).asString

/-- Embedding of `check_vocab` (lm.py 332-337): find all occurrences of the
`|`-joined vocabulary in the sentence and require the matches to be pairwise
distinct and exactly as many as there are vocabulary terms. -/
def check_vocab (sentence : String) (vocab : List String) : Bool :=
  let vocab_in := reFindall (joinAlt vocab) sentence
  let vocab_in_unique := vocab_in.dedup
  decide (vocab_in_unique.length = vocab_in.length ∧ vocab_in.length = vocab.length)

/-- The strict (default) constraint check of `decode_topk` (lm.py 388-394):
every term must match with `\b` word boundaries, and then `check_vocab` must
accept the sentence. -/
def admissibleStrict (decoded_no_mask : String) (v : List String) : Bool :=
  v.all (fun x => (reFindall (wordBoundPat x) decoded_no_mask).length != 0) &&
    check_vocab decoded_no_mask v

/-- The relaxed (subword fallback) constraint check of `decode_topk` (lm.py
385-386 plus 393): every term must match without word boundaries, and then
`check_vocab` must accept the sentence. -/
def admissibleRelaxed (decoded_no_mask : String) (v : List String) : Bool :=
  v.all (fun x => (reFindall x decoded_no_mask).length != 0) &&
    check_vocab decoded_no_mask v

/-- Embedding of `decode_topk` (lm.py 375-396).  The scoring backend and
tokenizer are out of scope, so `tokenizer.decode` composed with
`cleanup_decode` is abstracted as the `decode` parameter and the mask token
string as `maskStr`.  Out-of-range list indexing is modelled with `getD`;
the theorems only instantiate `k` within range, as the Python caller does. -/
def decode_topk (decode : List Nat → String) (maskStr : String)
    (vocab_to_keep : Option (List String)) (allow_subword : Bool)
    (inp : List Nat) (k replace_pos : Nat)
    (token_index : List Nat) (token_likelihood : List ℚ) : Option (String × ℚ) :=
  let tokens := inp.set replace_pos (token_index.getD k 0)
  let decoded := decode tokens
  let decoded_no_mask := pyReplace decoded maskStr ""
  match vocab_to_keep with
  | some v =>
    if allow_subword then
      if admissibleRelaxed decoded_no_mask v then some (decoded, token_likelihood.getD k 0)
      else none
    else
      if admissibleStrict decoded_no_mask v then some (decoded, token_likelihood.getD k 0)
      else none
  | none => some (decoded, token_likelihood.getD k 0)

/-- One row of the flattened per-position prediction data: the encoded input
ids of the sentence and, for every sequence position, the top
`topk_per_position` likelihoods and token ids returned by the model. -/
structure PosData where
  inp : List Nat
  val : List (List ℚ)
  ind : List (List Nat)

/-- Embedding of `process_single_pair` (lm.py 368-402): for each row of one
candidate's slice, keep the positions whose input id is the mask token and
decode the top `tk` predictions at each such position, filtering through the
constraint check. -/
def process_single_pair (decode : List Nat → String) (maskStr : String) (maskId : Nat)
    (vocab_to_keep : Option (List String)) (items : List PosData)
    (tk : Nat) (allow_subword : Bool) : List (String × ℚ) :=
  items.flatMap (fun pd =>
    let filtered := ((pd.val.zip pd.ind).enum).filter (fun x => pd.inp.getD x.1 0 == maskId)
    filtered.flatMap (fun x =>
      (List.range tk).filterMap (fun k =>
        decode_topk decode maskStr vocab_to_keep allow_subword pd.inp k x.1 x.2.2 x.2.1)))

/-- Python exceptions the embedded code can raise. -/
inductive PyErr where
  | typeError (msg : String)
  | assertionError (msg : String)
  | noValidSentence (vocab : List String) (prompt : String)
deriving DecidableEq

/-- The per-position prediction pool size, `topk_per_position = 100`
(lm.py 341). -/
def topk_per_position : Nat := 100

/-- Embedding of the per-candidate fallback ladder of
`Prompter.replace_single_token` (lm.py 404-415): strict check over the top
`tk` predictions; if empty (and the pool is larger) strict over the full
pool; if still empty the relaxed subword check over the full pool, with a
warning when that succeeds (modelled as the returned Bool); if still empty
raise `ValueError` reporting the constraint vocabulary and the current
prompt (`vocab_to_keep[partition_n]` is a `TypeError` when no vocabulary was
supplied, as in Python). -/
def fallbackLadder (decode : List Nat → String) (maskStr : String) (maskId : Nat)
    (vocab_to_keep : Option (List String)) (items : List PosData)
    (tk : Nat) (prompt : String) : Except PyErr (List (String × ℚ) × Bool) :=
  let t1 := process_single_pair decode maskStr maskId vocab_to_keep items tk false
  let t2 :=
    if t1.length == 0 && decide (topk_per_position > tk) then
      process_single_pair decode maskStr maskId vocab_to_keep items topk_per_position false
    else t1
  let t3 :=
    if t2.length == 0 then
      process_single_pair decode maskStr maskId vocab_to_keep items topk_per_position true
    else t2
  let warned := t2.length == 0 && t3.length != 0 && vocab_to_keep.isSome
  if t3.length == 0 then
    match vocab_to_keep with
    | none => Except.error (PyErr.typeError "NoneType object is not subscriptable")
    | some v => Except.error (PyErr.noValidSentence v prompt)
  else Except.ok (t3, warned)

/-- Python `max(pairs, key=lambda x: x[1])`: the first pair attaining the
maximal likelihood (total with a junk default on the empty list, which the
Python caller never passes). -/
def pyMaxBySnd (l : List (String × ℚ)) : String × ℚ :=
  match l with
  | [] => ("", 0)
  | x :: xs => xs.foldl (fun b a => if b.2 < a.2 then a else b) x

/-- Embedding of the deduplication step (lm.py 417-420): for each distinct
decoded sentence keep the admissible pair with the maximal likelihood.
Python iterates over a `set` whose order is implementation-defined; the
embedding iterates the distinct texts in `List.dedup` order, and every
property proved about the result is order-independent. -/
def dedupTopkEdit (topk_edit : List (String × ℚ)) : List (String × ℚ) :=
  ((topk_edit.map Prod.fst).dedup).map
    (fun d => pyMaxBySnd (topk_edit.filter (fun x => x.1 == d)))

/-- Stable insertion used to model Python `sorted(key=lambda x: x[1],
reverse=True)`: an element moves past existing entries only when their
likelihood is strictly larger, so equal likelihoods keep their relative
order exactly as Python timsort does. -/
def insertDesc (p : String × ℚ) : List (String × ℚ) → List (String × ℚ)
  | [] => [p]
  | q :: qs => if p.2 < q.2 then q :: insertDesc p qs else p :: q :: qs

/-- Python `sorted(l, key=lambda x: x[1], reverse=True)` (lm.py 421). -/
def sortDescBySnd (l : List (String × ℚ)) : List (String × ℚ) := l.foldr insertDesc []

/-- Embedding of lm.py 417-422: dedup, sort descending by likelihood, drop
the likelihoods and truncate to `min tk` length (the candidate's shortlist
appended to `greedy_filling`). -/
def shortlistOf (tk : Nat) (topk_edit : List (String × ℚ)) : List String :=
  let sorted := sortDescBySnd (dedupTopkEdit topk_edit)
  (sorted.map Prod.fst).take (min tk sorted.length)

/-- Embedding of `Partition.__init__` (lm.py 43-44): the per-group lengths
of a nested list. -/
def partitionLengths (l : List (List α)) : List Nat := l.map List.length

/-- Embedding of `Partition.__call__` (lm.py 46-47): the half-open flat
range `[sum(length[:x]), sum(length[:x+1]))` of group `x`. -/
def partitionCall (lengths : List Nat) (x : Nat) : Nat × Nat :=
  ((lengths.take x).sum, (lengths.take (x + 1)).sum)

/-- Embedding of `get_partition` (lm.py 28-31): the partition map of a
nested list, one range per group. -/
def get_partition (l : List (List α)) : List (Nat × Nat) :=
  (List.range l.length).map (partitionCall (partitionLengths l))

/-- The inverse regrouping `[flat[s:e] for s, e in partition]` (lm.py 427),
with Python slice semantics. -/
def regroup (flat : List β) (partition : List (Nat × Nat)) : List (List β) :=
  partition.map (fun p => (flat.drop p.1).take (p.2 - p.1))

/-- Python `min(l)` on likelihood lists (total with a junk default on the
empty list, which the Python caller never passes). -/
def pyMin (l : List ℚ) : ℚ :=
  match l with
  | [] => 0
  | x :: xs => xs.foldl min x

/-- Python `l.index(v)`: index of the first element equal to `v` (returns
`l.length` when absent, where Python raises; only used with present
values). -/
def pyIndexOf (l : List ℚ) (v : ℚ) : Nat :=
  match l with
  | [] => 0
  | x :: xs => if x = v then 0 else pyIndexOf xs v + 1

/-- Embedding of the perplexity re-ranking block (lm.py 424-432), with
`get_perplexity` abstracted as the pure per-sentence `score`: the flattened
shortlists are scored as one batch, regrouped by the partition map, and per
candidate the first sentence attaining the minimal perplexity is selected
(`sent[ppl.index(min(ppl))]`) together with that minimal perplexity. -/
def rerank (score : String → ℚ) (greedy_filling : List (List String)) :
    List String × List ℚ :=
  let partition := get_partition greedy_filling
  let list_ppl := regroup (greedy_filling.flatten.map score) partition
  let paired := greedy_filling.zip list_ppl
  (paired.map (fun sp => sp.1.getD (pyIndexOf sp.2 (pyMin sp.2)) ""),
   paired.map (fun sp => pyMin sp.2))

/-- Python `len(x)` on an optional list: raises `TypeError` on `None`
(lm.py line 240 evaluates `len(word_pairs)` unconditionally). -/
def pyLenOpt : Option (List α) → Except PyErr Nat
  | none => Except.error (PyErr.typeError "object of type NoneType has no len")
  | some l => Except.ok l.length

/-- Python truthiness of an optional list: `None` and `[]` are falsy. -/
def truthyOptList : Option (List α) → Bool
  | none => false
  | some l => !l.isEmpty

/-- State of the iterative revision loop (lm.py 277-311): the parallel
lists `seed_sentences`, `edit`, `edit_ppl`, `data_index` and
`vocab_to_keep` (kept in index lockstep by the Python code), plus the
`output_dict` modelled as a lookup function. -/
structure GenState where
  seed : List String
  edit : List (List String)
  editPpl : List (List ℚ)
  dataIndex : List Nat
  vocabKeep : Option (List (List String))
  outputDict : String → Option (List String × List ℚ)

/-- Python `dict` lookup over a batch of bindings where a later binding for
the same key overwrites an earlier one. -/
def lookupLast (l : List (String × β)) (k : String) : Option β :=
  l.foldl (fun acc p => if p.1 = k then some p.2 else acc) none

/-- Python `d.update(u)` restricted to lookups: the updated dictionary
answers from `u` (last binding wins) and falls back to `d`. -/
def dictUpdate (d : String → Option β) (u : List (String × β)) : String → Option β :=
  fun k =>
    match lookupLast u k with
    | some v => some v
    | none => d k

/-- The `index_fixed` list of a revision round (lm.py 288): the positions
whose best sentence equals the candidate's last recorded snapshot
(`seed_sentences[x] == edit[x][-1]`, over the re-assigned
`seed_sentences = best_edit`). -/
def index_fixedOf (B : Nat → List String → List String × List ℚ)
    (i : Nat) (st : GenState) : List Nat :=
  (List.range (B i st.seed).1.length).filter
    (fun x => (B i st.seed).1.getD x "" == (st.edit.getD x []).getLastD "")

/-- The dictionary update of a revision round (lm.py 289): each fixed
position contributes its key and its full histories. -/
def updOf (dataKey : Nat → String) (B : Nat → List String → List String × List ℚ)
    (i : Nat) (st : GenState) : List (String × (List String × List ℚ)) :=
  (index_fixedOf B i st).map
    (fun n => (dataKey (st.dataIndex.getD n 0), (st.edit.getD n [], st.editPpl.getD n [])))

/-- The `index_unfixed` list of a revision round (lm.py 292): the positions
whose new best perplexity is strictly lower than the last recorded one
(`ppl[x] < edit_ppl[x][-1]`). -/
def index_unfixedOf (B : Nat → List String → List String × List ℚ)
    (i : Nat) (st : GenState) : List Nat :=
  (List.range (B i st.seed).1.length).filter
    (fun x => decide ((B i st.seed).2.getD x 0 < (st.editPpl.getD x []).getLastD 0))

/-- One round of the iterative revision loop (the body of the `while True`
at lm.py 282-309).  `B i seeds` abstracts the round's
`replace_single_token` call, returning the per-candidate best sentences and
best perplexities; `dataKey` is the `data_key` dictionary.  Candidates whose
best sentence equals their last snapshot are copied into the output dict
(`index_fixed`); candidates whose new best perplexity is strictly lower than
their last recorded one survive with extended histories (`index_unfixed`);
every parallel list is re-indexed by `index_unfixed`. -/
def revisionStep (dataKey : Nat → String)
    (B : Nat → List String → List String × List ℚ)
    (i : Nat) (st : GenState) : GenState :=
  { seed := (index_unfixedOf B i st).map (fun x => (B i st.seed).1.getD x "")
    edit := (index_unfixedOf B i st).map
      (fun x => st.edit.getD x [] ++ [(B i st.seed).1.getD x ""])
    editPpl := (index_unfixedOf B i st).map
      (fun x => st.editPpl.getD x [] ++ [(B i st.seed).2.getD x 0])
    dataIndex := (index_unfixedOf B i st).map (fun x => st.dataIndex.getD x 0)
    vocabKeep :=
      if truthyOptList st.vocabKeep then
        st.vocabKeep.map (fun vk => (index_unfixedOf B i st).map (fun x => vk.getD x []))
      else st.vocabKeep
    outputDict := dictUpdate st.outputDict (updOf dataKey B i st) }

/-- The `while True` revision loop (lm.py 282-309): run a round, stop when
the active set is empty or the round counter has exceeded `n_revision`,
otherwise increment the counter and continue.  The fuel argument makes the
recursion structural; `none` marks fuel exhaustion, i.e. the loop did not
terminate within `fuel` rounds.  On termination the final state and the
number of rounds executed are returned. -/
def revisionLoopGo (dataKey : Nat → String)
    (B : Nat → List String → List String × List ℚ) (n_revision : Nat) :
    Nat → Nat → GenState → Option (GenState × Nat)
  | 0, _, _ => none
  | fuel + 1, i, st =>
    let st2 := revisionStep dataKey B i st
    if st2.seed.length == 0 then some (st2, 1)
    else if i > n_revision then some (st2, 1)
    else
      match revisionLoopGo dataKey B n_revision fuel (i + 1) st2 with
      | none => none
      | some r => some (r.1, r.2 + 1)

/-- The closing `output_dict.update(...)` of `Prompter.generate` (lm.py
311): every candidate still active at loop exit is finalized as-is. -/
def finalUpdate (dataKey : Nat → String) (st : GenState) :
    String → Option (List String × List ℚ) :=
  dictUpdate st.outputDict
    ((List.range st.dataIndex.length).map
      (fun n => (dataKey (st.dataIndex.getD n 0), (st.edit.getD n [], st.editPpl.getD n []))))

/-- The revision phase of `Prompter.generate` end to end: run the loop from
round counter 0 (with fuel `n_revision + 2`, which the C1 theorems prove
always suffices) and apply the final update.  The result maps each candidate
key to its pair of edit and perplexity histories. -/
def revisionGenerate (dataKey : Nat → String)
    (B : Nat → List String → List String × List ℚ)
    (n_revision : Nat) (st : GenState) : String → Option (List String × List ℚ) :=
  finalUpdate dataKey ((revisionLoopGo dataKey B n_revision (n_revision + 2) 0 st).getD (st, 0)).1

/-- The initial loop state of the seed-sentence mode (lm.py 247-249): each
seed is its own one-element edit history with an empty perplexity history. -/
def initialSeedState (ss : List String) (vocab_to_keep : Option (List (List String))) :
    GenState :=
  { seed := ss
    edit := ss.map (fun s => [s])
    editPpl := List.replicate ss.length []
    dataIndex := List.range ss.length
    vocabKeep := vocab_to_keep
    outputDict := fun _ => none }

/-- Embedding of the prelude and mode selection of `Prompter.generate`
(lm.py 239-256).  The first executable statement is the debug print
`print(len(word_pairs))` at line 240, before any validation; with
`word_pairs=None` it raises `TypeError`.  The two modes need the scoring
backend, so the remainder of each mode is received as a continuation:
`seedMode` consumes the initial revision-loop state of the seed-sentence
mode, `pairMode` the word-pair list of the word-pair mode. -/
def generate (word_pairs : Option (List (List String)))
    (seed_sentences : Option (List String))
    (vocab_to_keep : Option (List (List String)))
    (seedMode : GenState → Except PyErr (String → Option (List String × List ℚ)))
    (pairMode : List (List String) → Except PyErr (String → Option (List String × List ℚ))) :
    Except PyErr (String → Option (List String × List ℚ)) :=
  match pyLenOpt word_pairs with
  | Except.error e => Except.error e
  | Except.ok _ =>
    if truthyOptList seed_sentences then
      if truthyOptList word_pairs then
        Except.error (PyErr.assertionError "both of seed_sentences and word_pairs are given")
      else seedMode (initialSeedState (seed_sentences.getD []) vocab_to_keep)
    else
      if !truthyOptList word_pairs then
        Except.error (PyErr.assertionError "either of seed_sentences or word_pairs is required")
      else pairMode (word_pairs.getD [])

/-- Characters that the regex fragment treats as literals and that are word
characters, so a term made of them is matched verbatim by the interpolated
patterns (every alphanumeric ASCII term, e.g. the seed words of the word
pairs). -/
def isPlainChar (c : Char) : Bool := c.isAlphanum

/-- The single-alternative pattern a plain term compiles to: its characters
as literal atoms. -/
def litBranch (t : List Char) : List RAtom := t.map RAtom.lit

/-- Modelled from the spec: `t` occurs as a whole-word match of `s` at
character position `i` — the characters of `t` appear at `i` and the
characters adjacent to the occurrence (when any) are not word characters. -/
def wordOccAt (t s : List Char) (i : Nat) : Bool :=
  listStarts t (s.drop i) &&
  (i == 0 || !isWordChar (s.getD (i - 1) ' ')) &&
  (i + t.length == s.length || !isWordChar (s.getD (i + t.length) ' '))

/-- Modelled from the spec: the number of whole-word occurrences of `t` in
`s` (positions are distinct, so this counts occurrences). -/
def wholeWordCount (t s : List Char) : Nat :=
  ((List.range (s.length + 1)).filter (wordOccAt t s)).length

/-- Modelled from the spec: `t` has at least one whole-word occurrence in
`s`. -/
def hasWholeWord (t s : List Char) : Bool :=
  (List.range (s.length + 1)).any (wordOccAt t s)

/-- The admissibility rule exactly as claim C2 words it: every vocabulary
term occurs as a whole-word match and the whole-word occurrences are one per
term with no duplicates. -/
def claimStrictAdmissible (s : String) (v : List String) : Bool :=
  v.all (fun t => wholeWordCount t.data s.data == 1)

/-- Whole-word occurrence restated at a split point: the haystack is
`s1 ++ s2`, `t` starts exactly at the split, and the characters adjacent to
the occurrence (the last of `s1`, the one following `t` in `s2`) are not
word characters.  Used to relate the `\b` scan to `wordOccAt`. -/
def wordOccSplit (t s1 s2 : List Char) : Bool :=
  listStarts t s2 && !isWordCharOpt s1.getLast? && !isWordCharOpt ((s2.drop t.length).head?)

/-- Lengths of the lockstep-parallel lists of a revision-loop state agree
(the invariant the Python code maintains by re-indexing every list with the
same `index_unfixed`). -/
def wfLen (st : GenState) : Prop :=
  st.edit.length = st.seed.length ∧ st.editPpl.length = st.seed.length ∧
    st.dataIndex.length = st.seed.length

/-- The last recorded perplexity of every candidate is the score of its last
recorded snapshot (true whenever perplexities are a deterministic function
of the sentence, since the loop appends snapshot and perplexity together). -/
def scoreLink (score : String → ℚ) (st : GenState) : Prop :=
  ∀ x, x < st.seed.length →
    (st.editPpl.getD x []).getLastD 0 = score ((st.edit.getD x []).getLastD "")

/-- The abstracted `replace_single_token` backend returns one best sentence
per input sentence, scored by a deterministic per-sentence `score` (the
perplexity re-ranker returns `min(ppl)` together with the sentence
attaining it, see `rerank`). -/
def backendSpec (score : String → ℚ)
    (B : Nat → List String → List String × List ℚ) : Prop :=
  ∀ i s, ((B i s).1).length = s.length ∧ (B i s).2 = ((B i s).1).map score

/-- Per-candidate history-length invariant: one more snapshot than recorded
scores (the seed snapshot has no score). -/
def histLenInv (st : GenState) : Prop :=
  ∀ x, x < st.seed.length →
    (st.edit.getD x []).length = (st.editPpl.getD x []).length + 1

/-- Every entry of an output dictionary has one more snapshot than scores. -/
def outDictLenInv (d : String → Option (List String × List ℚ)) : Prop :=
  ∀ k h p, d k = some (h, p) → h.length = p.length + 1

/-- No active candidate has been finalized yet: the output dictionary has no
entry under any active candidate's key. -/
def outputFresh (dataKey : Nat → String) (st : GenState) : Prop :=
  ∀ j ∈ st.dataIndex, st.outputDict (dataKey j) = none

/-- Injective candidate-key function used by the concrete witnesses. -/
def dkRep : Nat → String := fun n => (List.replicate n 'k').asString

/-- Deterministic sentence score used by the concrete witnesses. -/
def scoreLen : String → ℚ := fun s => (s.data.length : ℚ)

/-- A backend whose best sentence never changes, scored by `scoreLen`
(used to witness the fixed-candidate transition). -/
def bFix : Nat → List String → List String × List ℚ :=
  fun _ s => (s, s.map scoreLen)

/-- A one-candidate loop state whose candidate `bFix` immediately fixes. -/
def stFix : GenState :=
  { seed := ["ab"], edit := [["a", "ab"]], editPpl := [[2]],
    dataIndex := [0], vocabKeep := none, outputDict := fun _ => none }

/-- An adversarial backend: the best sentence changes every round and its
reported perplexity strictly improves every round. -/
def bImprove : Nat → List String → List String × List ℚ :=
  fun i s => (s.map (fun t => t ++ "x"), s.map (fun _ => -((i : ℚ))))

/-- A one-candidate loop state that `bImprove` keeps active forever. -/
def stImprove : GenState :=
  { seed := ["s"], edit := [["a", "s"]], editPpl := [[10]],
    dataIndex := [0], vocabKeep := none, outputDict := fun _ => none }

/-- A backend that drops the candidate: the best sentence differs from the
last snapshot but its score does not improve (`scoreLen` grows when a
character is appended). -/
def bWorsen : Nat → List String → List String × List ℚ :=
  fun _ s => (s.map (fun t => t ++ "x"), (s.map (fun t => t ++ "x")).map scoreLen)

/-- C9: for every call of `Prompter.generate` in which `seed_sentences` is
supplied and `word_pairs` is omitted (`None`), the call raises `TypeError`
at the unconditional debug statement `print(len(word_pairs))` (lm.py 240),
before any input validation, candidate construction, or scoring-backend
call: whatever the two mode continuations would compute, the result is that
error, so the seed-sentence revision mode never reaches the revision loop. -/
theorem c9_seed_mode_raises_type_error (ss : List String)
    (v : Option (List (List String)))
    (sm : GenState → Except PyErr (String → Option (List String × List ℚ)))
    (pm : List (List String) → Except PyErr (String → Option (List String × List ℚ))) :
    generate none (some ss) v sm pm =
      Except.error (PyErr.typeError "object of type NoneType has no len") := rfl

/-- C10: the constraint checks interpret vocabulary terms as regex patterns,
not literals.  With the metacharacter term `"[MASK]"` (a character class),
the sentence `"the M token"`, which does not contain `"[MASK]"` literally,
passes both the strict and the relaxed check.  And occurrence counting over
the `|`-joined alternation miscounts overlapping terms: with vocabulary
`["a", "ab"]` on `"the dog ate ab"`, both terms occur literally, yet the
joined scan reports `["a", "a"]` — the occurrence of `"ab"` is never
counted (a lone `"ab"` scan finds it), so `check_vocab` rejects the
sentence. -/
theorem c10_terms_are_regexes :
    (admissibleStrict "the M token" ["[MASK]"] = true ∧
     admissibleRelaxed "the M token" ["[MASK]"] = true ∧
     literalSubstr "[MASK]" "the M token" = false) ∧
    (literalSubstr "a" "the dog ate ab" = true ∧
     literalSubstr "ab" "the dog ate ab" = true ∧
     reFindall (joinAlt ["a", "ab"]) "the dog ate ab" = ["a", "a"] ∧
     reFindall "ab" "the dog ate ab" = ["ab"] ∧
     check_vocab "the dog ate ab" ["a", "ab"] = false) := by decide

theorem partitionLengths_cons (g : List α) (gs : List (List α)) :
    partitionLengths (g :: gs) = g.length :: partitionLengths gs := rfl

theorem get_partition_cons (g : List α) (gs : List (List α)) :
    get_partition (g :: gs) =
      (0, g.length) :: (get_partition gs).map (fun p => (g.length + p.1, g.length + p.2)) := by
  unfold get_partition
  rw [List.length_cons, List.range_succ_eq_map, List.map_cons, List.map_map, List.map_map]
  congr 1

theorem regroup_shift (res : List β) (a : Nat) (part : List (Nat × Nat)) :
    regroup res (part.map (fun p => (a + p.1, a + p.2))) = regroup (res.drop a) part := by
  unfold regroup
  rw [List.map_map]
  refine List.map_congr_left (fun p _ => ?_)
  simp only [Function.comp_apply]
  rw [Nat.add_sub_add_left, List.drop_drop]

theorem regroup_flatten_shape (gs : List (List α)) (res : List β)
    (h : res.length = gs.flatten.length) :
    (regroup res (get_partition gs)).map List.length = gs.map List.length ∧
      (regroup res (get_partition gs)).flatten = res := by
  induction gs generalizing res with
  | nil =>
    have : res = [] := List.length_eq_zero.mp (by simpa using h)
    subst this
    simp [regroup, get_partition]
  | cons g gs ih =>
    have hlen : res.length = g.length + gs.flatten.length := by
      simpa [List.flatten_cons] using h
    have hge : g.length ≤ res.length := by omega
    have hshift := regroup_shift res g.length (get_partition gs)
    have ih2 := ih (res.drop g.length) (by simp [hlen])
    rw [get_partition_cons]
    simp only [regroup] at hshift ih2 ⊢
    rw [List.map_cons, List.drop_zero, Nat.sub_zero, hshift]
    refine ⟨?_, ?_⟩
    · rw [List.map_cons, ih2.1, List.map_cons]
      congr 1
      rw [List.length_take]
      omega
    · rw [List.flatten_cons, ih2.2, List.take_append_drop]

theorem regroup_roundtrip (gs : List (List α)) :
    regroup gs.flatten (get_partition gs) = gs := by
  induction gs with
  | nil => simp [regroup, get_partition]
  | cons g gs ih =>
    have hshift := regroup_shift (g :: gs).flatten g.length (get_partition gs)
    rw [get_partition_cons]
    simp only [regroup] at hshift ih ⊢
    rw [List.map_cons, List.drop_zero, Nat.sub_zero, hshift]
    rw [show (g :: gs).flatten.take g.length = g by
      rw [List.flatten_cons, List.take_left]]
    rw [show (g :: gs).flatten.drop g.length = gs.flatten by
      rw [List.flatten_cons, List.drop_left]]
    rw [ih]

theorem get_partition_getD (gs : List (List α)) (i : Nat) (h : i < gs.length) :
    (get_partition gs).getD i (0, 0) =
      (((gs.take i).map List.length).sum, ((gs.take (i + 1)).map List.length).sum) := by
  have hlen : i < (get_partition gs).length := by simp [get_partition, h]
  rw [List.getD_eq_getElem _ _ hlen]
  simp only [get_partition, List.getElem_map, List.getElem_range]
  simp [partitionCall, partitionLengths, List.map_take]

/-- C6: for every list of groups (any per-group lengths, including all-zero
and all-equal), flattening then regrouping by the partition map of
`get_partition` reproduces the original per-group structure exactly; for any
flat list of per-item results of the flattened length, regrouping preserves
every item in order with the original per-group lengths (nothing dropped,
duplicated or reordered); and the `i`-th range is exactly
`[sum of lengths before i, that sum plus the length of group i)`. -/
theorem c6_partition_roundtrip (α β : Type) (gs : List (List α)) :
    regroup gs.flatten (get_partition gs) = gs ∧
    (∀ res : List β, res.length = gs.flatten.length →
      (regroup res (get_partition gs)).flatten = res ∧
      (regroup res (get_partition gs)).map List.length = gs.map List.length) ∧
    (∀ i, i < gs.length →
      (get_partition gs).getD i (0, 0) =
        (((gs.take i).map List.length).sum, ((gs.take (i + 1)).map List.length).sum)) :=
  ⟨regroup_roundtrip gs,
   fun res h => ⟨(regroup_flatten_shape gs res h).2, (regroup_flatten_shape gs res h).1⟩,
   fun i h => get_partition_getD gs i h⟩

/-- Witness for C6 at a concrete uneven grouping. -/
theorem c6_partition_roundtrip_witness :
    regroup ([[10, 20], [], [30]] : List (List Nat)).flatten
        (get_partition [[10, 20], [], [30]]) = [[10, 20], [], [30]] ∧
    (regroup ([5, 6, 7] : List Nat)
        (get_partition ([[10, 20], [], [30]] : List (List Nat)))).flatten = [5, 6, 7] ∧
    (get_partition ([[10, 20], [], [30]] : List (List Nat))).getD 2 (0, 0) = (2, 3) := by
  have h := c6_partition_roundtrip Nat Nat [[10, 20], [], [30]]
  exact ⟨h.1, (h.2.1 [5, 6, 7] (by decide)).1, by rw [h.2.2 2 (by decide)]; decide⟩

theorem foldl_max_mem (xs : List (String × ℚ)) (b : String × ℚ) :
    xs.foldl (fun b a => if b.2 < a.2 then a else b) b ∈ b :: xs := by
  induction xs generalizing b with
  | nil => exact List.mem_singleton.mpr rfl
  | cons x xs ih =>
    have h := ih (if b.2 < x.2 then x else b)
    rcases List.mem_cons.mp h with h1 | h1
    · by_cases hc : b.2 < x.2
      · rw [List.foldl_cons, h1, if_pos hc]
        exact List.mem_cons_of_mem _ (List.mem_cons_self _ _)
      · rw [List.foldl_cons, h1, if_neg hc]
        exact List.mem_cons_self _ _
    · rw [List.foldl_cons]
      exact List.mem_cons_of_mem _ (List.mem_cons_of_mem _ h1)

theorem foldl_max_ge (xs : List (String × ℚ)) (b : String × ℚ) :
    b.2 ≤ (xs.foldl (fun b a => if b.2 < a.2 then a else b) b).2 ∧
      ∀ y ∈ xs, y.2 ≤ (xs.foldl (fun b a => if b.2 < a.2 then a else b) b).2 := by
  induction xs generalizing b with
  | nil => exact ⟨le_refl _, fun y hy => absurd hy (List.not_mem_nil y)⟩
  | cons x xs ih =>
    have h := ih (if b.2 < x.2 then x else b)
    have hb : b.2 ≤ (if b.2 < x.2 then x else b).2 := by
      by_cases hc : b.2 < x.2
      · rw [if_pos hc]; exact le_of_lt hc
      · rw [if_neg hc]
    have hx : x.2 ≤ (if b.2 < x.2 then x else b).2 := by
      by_cases hc : b.2 < x.2
      · rw [if_pos hc]
      · rw [if_neg hc]; exact le_of_not_lt hc
    refine ⟨le_trans hb h.1, fun y hy => ?_⟩
    rcases List.mem_cons.mp hy with h1 | h1
    · subst h1; exact le_trans hx h.1
    · exact h.2 y h1

theorem pyMaxBySnd_mem (l : List (String × ℚ)) (h : l ≠ []) : pyMaxBySnd l ∈ l := by
  match l with
  | [] => exact absurd rfl h
  | x :: xs => exact foldl_max_mem xs x

theorem pyMaxBySnd_ge (l : List (String × ℚ)) :
    ∀ y ∈ l, y.2 ≤ (pyMaxBySnd l).2 := by
  match l with
  | [] => exact fun y hy => absurd hy (List.not_mem_nil y)
  | x :: xs =>
    intro y hy
    rcases List.mem_cons.mp hy with h1 | h1
    · subst h1; exact (foldl_max_ge xs y).1
    · exact (foldl_max_ge xs x).2 y h1

theorem dedupTopkEdit_fst (l : List (String × ℚ)) (d : String)
    (hd : d ∈ (l.map Prod.fst).dedup) :
    (pyMaxBySnd (l.filter (fun x => x.1 == d))).1 = d ∧
      l.filter (fun x => x.1 == d) ≠ [] := by
  obtain ⟨q, hq, hq1⟩ := List.mem_map.mp (List.mem_dedup.mp hd)
  have hqf : q ∈ l.filter (fun x => x.1 == d) :=
    List.mem_filter.mpr ⟨hq, beq_iff_eq.mpr hq1⟩
  have hne : l.filter (fun x => x.1 == d) ≠ [] := fun hc => by
    rw [hc] at hqf; exact absurd hqf (List.not_mem_nil q)
  have hmem := pyMaxBySnd_mem _ hne
  exact ⟨beq_iff_eq.mp (List.mem_filter.mp hmem).2, hne⟩

theorem dedupTopkEdit_map_fst (l : List (String × ℚ)) :
    (dedupTopkEdit l).map Prod.fst = (l.map Prod.fst).dedup := by
  unfold dedupTopkEdit
  rw [List.map_map]
  have := List.map_congr_left (l := (l.map Prod.fst).dedup)
    (f := Prod.fst ∘ fun d => pyMaxBySnd (l.filter (fun x => x.1 == d))) (g := id)
    (fun d hd => (dedupTopkEdit_fst l d hd).1)
  rw [this, List.map_id]

theorem dedupTopkEdit_best (l : List (String × ℚ)) :
    ∀ p ∈ dedupTopkEdit l, p ∈ l ∧ ∀ q ∈ l, q.1 = p.1 → q.2 ≤ p.2 := by
  intro p hp
  obtain ⟨d, hd, hpd⟩ := List.mem_map.mp hp
  obtain ⟨hfst, hne⟩ := dedupTopkEdit_fst l d hd
  have hmem := pyMaxBySnd_mem _ hne
  refine ⟨hpd ▸ (List.mem_filter.mp hmem).1, fun q hq hq1 => ?_⟩
  have hqd : q.1 = d := by rw [hq1, ← hpd]; exact hfst
  have hqf : q ∈ l.filter (fun x => x.1 == d) :=
    List.mem_filter.mpr ⟨hq, beq_iff_eq.mpr hqd⟩
  exact hpd ▸ pyMaxBySnd_ge _ q hqf

theorem insertDesc_perm (p : String × ℚ) (l : List (String × ℚ)) :
    (insertDesc p l).Perm (p :: l) := by
  induction l with
  | nil => exact List.Perm.refl _
  | cons q qs ih =>
    unfold insertDesc
    by_cases hc : p.2 < q.2
    · rw [if_pos hc]
      exact List.Perm.trans (List.Perm.cons q ih) (List.Perm.swap p q qs)
    · rw [if_neg hc]

theorem sortDescBySnd_perm (l : List (String × ℚ)) : (sortDescBySnd l).Perm l := by
  induction l with
  | nil => exact List.Perm.refl _
  | cons x xs ih =>
    exact List.Perm.trans (insertDesc_perm x (sortDescBySnd xs)) (List.Perm.cons x ih)

theorem insertDesc_sorted (p : String × ℚ) (l : List (String × ℚ))
    (h : l.Pairwise (fun a b => b.2 ≤ a.2)) :
    (insertDesc p l).Pairwise (fun a b => b.2 ≤ a.2) := by
  induction l with
  | nil => exact List.pairwise_singleton _ _
  | cons q qs ih =>
    rw [List.pairwise_cons] at h
    unfold insertDesc
    by_cases hc : p.2 < q.2
    · rw [if_pos hc]
      rw [List.pairwise_cons]
      refine ⟨fun y hy => ?_, ih h.2⟩
      rcases List.mem_cons.mp ((insertDesc_perm p qs).mem_iff.mp hy) with h1 | h1
      · subst h1; exact le_of_lt hc
      · exact h.1 y h1
    · rw [if_neg hc]
      rw [List.pairwise_cons]
      refine ⟨fun y hy => ?_, List.pairwise_cons.mpr h⟩
      rcases List.mem_cons.mp hy with h1 | h1
      · subst h1; exact le_of_not_lt hc
      · exact le_trans (h.1 y h1) (le_of_not_lt hc)

theorem sortDescBySnd_sorted (l : List (String × ℚ)) :
    (sortDescBySnd l).Pairwise (fun a b => b.2 ≤ a.2) := by
  induction l with
  | nil => exact List.Pairwise.nil
  | cons x xs ih => exact insertDesc_sorted x (sortDescBySnd xs) ih

/-- C5: deduplication keeps, for each distinct decoded sentence text,
exactly one pair — one actually produced, whose likelihood is maximal among
all pairs with that text (the distinct texts are exactly the deduplicated
input texts); the result is then sorted descending by likelihood (a
permutation of the deduplicated pairs, non-increasing in likelihood) and the
shortlist is truncated to at most `tk` entries. -/
theorem c5_dedup_shortlist (l : List (String × ℚ)) (tk : Nat) :
    (dedupTopkEdit l).map Prod.fst = (l.map Prod.fst).dedup ∧
    (∀ p ∈ dedupTopkEdit l, p ∈ l ∧ ∀ q ∈ l, q.1 = p.1 → q.2 ≤ p.2) ∧
    (sortDescBySnd (dedupTopkEdit l)).Pairwise (fun a b => b.2 ≤ a.2) ∧
    (sortDescBySnd (dedupTopkEdit l)).Perm (dedupTopkEdit l) ∧
    (shortlistOf tk l).length ≤ tk :=
  ⟨dedupTopkEdit_map_fst l, dedupTopkEdit_best l,
   sortDescBySnd_sorted (dedupTopkEdit l), sortDescBySnd_perm (dedupTopkEdit l),
   by
    simp only [shortlistOf, List.length_take, List.length_map]
    exact le_trans (Nat.min_le_left _ _) (Nat.min_le_left _ _)⟩

/-- Witness for C5 at the shortlist example of the spec, with the
likelihoods 0.9, 0.5, 0.7 scaled by ten to the rationals 9, 5, 7 (the
deduplication and ordering only compare likelihoods, so the scaling is
immaterial): `[("a fox ran", 9), ("a fox ran", 5), ("a fox sat", 7)]` dedups
and sorts to `[("a fox ran", 9), ("a fox sat", 7)]`. -/
theorem c5_dedup_shortlist_witness :
    sortDescBySnd (dedupTopkEdit
        [("a fox ran", (9 : ℚ)), ("a fox ran", (5 : ℚ)), ("a fox sat", (7 : ℚ))]) =
      [("a fox ran", (9 : ℚ)), ("a fox sat", (7 : ℚ))] ∧
    shortlistOf 10
        [("a fox ran", (9 : ℚ)), ("a fox ran", (5 : ℚ)), ("a fox sat", (7 : ℚ))] =
      ["a fox ran", "a fox sat"] ∧
    (shortlistOf 1
        [("a fox ran", (9 : ℚ)), ("a fox ran", (5 : ℚ)), ("a fox sat", (7 : ℚ))]).length ≤ 1 := by
  have h := c5_dedup_shortlist
    [("a fox ran", (9 : ℚ)), ("a fox ran", (5 : ℚ)), ("a fox sat", (7 : ℚ))] 1
  exact ⟨by decide, by decide, h.2.2.2.2⟩

theorem foldl_min_mem (xs : List ℚ) (x : ℚ) : xs.foldl min x ∈ x :: xs := by
  induction xs generalizing x with
  | nil => exact List.mem_singleton.mpr rfl
  | cons a xs ih =>
    have h := ih (min x a)
    rw [List.foldl_cons]
    rcases List.mem_cons.mp h with h1 | h1
    · rcases min_choice x a with hc | hc
      · rw [h1, hc]
        exact List.mem_cons_self _ _
      · rw [h1, hc]
        exact List.mem_cons_of_mem _ (List.mem_cons_self _ _)
    · exact List.mem_cons_of_mem _ (List.mem_cons_of_mem _ h1)

theorem foldl_min_le (xs : List ℚ) (x : ℚ) : ∀ y ∈ x :: xs, xs.foldl min x ≤ y := by
  induction xs generalizing x with
  | nil =>
    intro y hy
    rw [List.mem_singleton.mp hy]
    exact le_refl _
  | cons a xs ih =>
    intro y hy
    have hle : xs.foldl min (min x a) ≤ min x a := ih (min x a) _ (List.mem_cons_self _ _)
    rw [List.foldl_cons]
    rcases List.mem_cons.mp hy with h1 | h1
    · subst h1
      exact le_trans hle (min_le_left _ _)
    · rcases List.mem_cons.mp h1 with h2 | h2
      · subst h2
        exact le_trans hle (min_le_right _ _)
      · exact ih (min x a) y (List.mem_cons_of_mem _ h2)

theorem pyMin_mem (l : List ℚ) (h : l ≠ []) : pyMin l ∈ l := by
  match l with
  | [] => exact absurd rfl h
  | x :: xs => exact foldl_min_mem xs x

theorem pyMin_le (l : List ℚ) : ∀ y ∈ l, pyMin l ≤ y := by
  match l with
  | [] => exact fun y hy => absurd hy (List.not_mem_nil y)
  | x :: xs => exact foldl_min_le xs x

theorem getD_pyIndexOf_find (score : String → ℚ) (m : ℚ) :
    ∀ s : List String, (∃ x ∈ s, score x = m) →
      (s.find? (fun x => score x == m)).isSome = true ∧
        s.getD (pyIndexOf (s.map score) m) "" =
          (s.find? (fun x => score x == m)).getD "" := by
  intro s
  induction s with
  | nil =>
    rintro ⟨x, hx, _⟩
    exact absurd hx (List.not_mem_nil x)
  | cons a s2 ih =>
    intro hex
    by_cases hc : score a = m
    · have hb : (score a == m) = true := beq_iff_eq.mpr hc
      have hfind : (a :: s2).find? (fun x => score x == m) = some a := by
        rw [List.find?_cons, hb]
      refine ⟨by rw [hfind]; rfl, ?_⟩
      rw [hfind, List.map_cons]
      unfold pyIndexOf
      rw [if_pos hc]
      rfl
    · have hb : (score a == m) = false := beq_eq_false_iff_ne.mpr hc
      have hex2 : ∃ x ∈ s2, score x = m := by
        obtain ⟨x, hx, hxm⟩ := hex
        rcases List.mem_cons.mp hx with h1 | h1
        · exact absurd (h1 ▸ hxm) hc
        · exact ⟨x, h1, hxm⟩
      have hfind : (a :: s2).find? (fun x => score x == m) =
          s2.find? (fun x => score x == m) := by
        rw [List.find?_cons, hb]
      refine ⟨by rw [hfind]; exact (ih hex2).1, ?_⟩
      rw [hfind, List.map_cons]
      unfold pyIndexOf
      rw [if_neg hc, List.getD_cons_succ]
      exact (ih hex2).2

theorem rerank_eq (score : String → ℚ) (g : List (List String)) :
    rerank score g =
      (g.map (fun s => s.getD (pyIndexOf (s.map score) (pyMin (s.map score))) ""),
       g.map (fun s => pyMin (s.map score))) := by
  have h1 : g.flatten.map score = (g.map (List.map score)).flatten := by
    rw [List.map_flatten]
  have h2 : get_partition (α := String) g = get_partition (g.map (List.map score)) := by
    unfold get_partition partitionLengths
    rw [List.length_map, List.map_map]
    have h3 : g.map (List.length ∘ List.map score) = g.map List.length :=
      List.map_congr_left (fun s _ => by simp)
    rw [h3]
  have h4 : g.zip (g.map (List.map score)) = g.map (fun s => (s, s.map score)) := by
    conv_lhs => rw [show g.zip (g.map (List.map score)) =
      (g.map id).zip (g.map (List.map score)) by rw [List.map_id]]
    rw [List.zip_map']
    rfl
  simp only [rerank]
  rw [h1, h2, regroup_roundtrip, h4, List.map_map, List.map_map]
  rfl

/-- C7: for every candidate with a non-empty shortlist, the perplexity
re-ranker selects the shortlist sentence whose score is the minimum of the
shortlist's scores, and on ties the first such sentence in shortlist order
(it equals `find?` of the minimal score, is a member of the shortlist,
attains the minimum, and the reported best score is that minimum). -/
theorem c7_rerank_min (score : String → ℚ) (g : List (List String)) (i : Nat)
    (hi : i < g.length) (hne : g.getD i [] ≠ []) :
    (rerank score g).1.getD i "" =
      ((g.getD i []).find?
        (fun s => score s == pyMin ((g.getD i []).map score))).getD "" ∧
    (rerank score g).1.getD i "" ∈ g.getD i [] ∧
    score ((rerank score g).1.getD i "") = pyMin ((g.getD i []).map score) ∧
    (∀ s ∈ g.getD i [], pyMin ((g.getD i []).map score) ≤ score s) ∧
    (rerank score g).2.getD i 0 = pyMin ((g.getD i []).map score) := by
  have hmapne : (g.getD i []).map score ≠ [] := by
    intro hc
    exact hne (List.map_eq_nil_iff.mp hc)
  have hminmem := pyMin_mem _ hmapne
  obtain ⟨x, hx, hxm⟩ := List.mem_map.mp hminmem
  have hfind := getD_pyIndexOf_find score (pyMin ((g.getD i []).map score))
    (g.getD i []) ⟨x, hx, hxm⟩
  obtain ⟨y, hy⟩ := Option.isSome_iff_exists.mp hfind.1
  have hymem := List.mem_of_find?_eq_some hy
  have hp := @List.find?_some String
    (fun x => score x == pyMin ((g.getD i []).map score)) y (g.getD i []) hy
  have hypred : score y = pyMin ((g.getD i []).map score) := by simpa using hp
  have hre := rerank_eq score g
  have hfst : (rerank score g).1.getD i "" =
      (g.getD i []).getD
        (pyIndexOf ((g.getD i []).map score) (pyMin ((g.getD i []).map score))) "" := by
    rw [hre]
    have hlen : i < (g.map (fun s =>
        s.getD (pyIndexOf (s.map score) (pyMin (s.map score))) "")).length := by
      rw [List.length_map]
      exact hi
    rw [List.getD_eq_getElem _ _ hlen, List.getElem_map, List.getD_eq_getElem _ _ hi]
  have hsnd : (rerank score g).2.getD i 0 = pyMin ((g.getD i []).map score) := by
    rw [hre]
    have hlen : i < (g.map (fun s => pyMin (s.map score))).length := by
      rw [List.length_map]
      exact hi
    rw [List.getD_eq_getElem _ _ hlen, List.getElem_map, List.getD_eq_getElem _ _ hi]
  have hbest : (rerank score g).1.getD i "" = y := by
    rw [hfst, hfind.2, hy]
    rfl
  refine ⟨by rw [hfst, hfind.2], by rw [hbest]; exact hymem, by rw [hbest]; exact hypred,
    fun s hs => ?_, hsnd⟩
  exact pyMin_le _ (score s) (List.mem_map_of_mem score hs)

/-- Witness for C7 on a concrete two-candidate batch with a tie: scoring by
string length, `["bb", "a", "c"]` has minimal score 1 attained first by
`"a"`, and the re-ranker returns it with best score 1. -/
theorem c7_rerank_min_witness :
    (rerank (fun s => ((s.length : ℚ))) [["bb", "a", "c"], ["dd", "e"]]).1.getD 0 "" = "a" ∧
    (rerank (fun s => ((s.length : ℚ))) [["bb", "a", "c"], ["dd", "e"]]).2.getD 0 0 = 1 ∧
    "a" ∈ ["bb", "a", "c"] := by
  have h := c7_rerank_min (fun s => ((s.length : ℚ))) [["bb", "a", "c"], ["dd", "e"]] 0
    (by decide) (by decide)
  refine ⟨?_, ?_, by decide⟩
  · rw [h.1]
    decide
  · rw [h.2.2.2.2]
    decide

/-- C4: the fallback ladder escalates to the next stage only when the
previous stage produced an empty shortlist — strict check over the top `tk`
predictions, then strict over the full `topk_per_position = 100` pool, then
the relaxed subword check over that pool (flagging the warning the code
logs) — and when all stages yield zero admissible sentences the operation
raises an explicit error reporting the candidate's constraint vocabulary and
its current text rather than silently skipping the candidate. -/
theorem c4_fallback_ladder (decode : List Nat → String) (maskStr : String) (maskId : Nat)
    (v : List String) (items : List PosData) (tk : Nat) (prompt : String)
    (htk : tk < topk_per_position) :
    (process_single_pair decode maskStr maskId (some v) items tk false ≠ [] →
      fallbackLadder decode maskStr maskId (some v) items tk prompt =
        Except.ok (process_single_pair decode maskStr maskId (some v) items tk false,
          false)) ∧
    (process_single_pair decode maskStr maskId (some v) items tk false = [] →
      process_single_pair decode maskStr maskId (some v) items topk_per_position false ≠ [] →
      fallbackLadder decode maskStr maskId (some v) items tk prompt =
        Except.ok
          (process_single_pair decode maskStr maskId (some v) items topk_per_position false,
           false)) ∧
    (process_single_pair decode maskStr maskId (some v) items tk false = [] →
      process_single_pair decode maskStr maskId (some v) items topk_per_position false = [] →
      process_single_pair decode maskStr maskId (some v) items topk_per_position true ≠ [] →
      fallbackLadder decode maskStr maskId (some v) items tk prompt =
        Except.ok
          (process_single_pair decode maskStr maskId (some v) items topk_per_position true,
           true)) ∧
    (process_single_pair decode maskStr maskId (some v) items tk false = [] →
      process_single_pair decode maskStr maskId (some v) items topk_per_position false = [] →
      process_single_pair decode maskStr maskId (some v) items topk_per_position true = [] →
      fallbackLadder decode maskStr maskId (some v) items tk prompt =
        Except.error (PyErr.noValidSentence v prompt)) := by
  have hd : decide (topk_per_position > tk) = true := decide_eq_true htk
  refine ⟨fun h1 => ?_, fun h1 h2 => ?_, fun h1 h2 h3 => ?_, fun h1 h2 h3 => ?_⟩
  · have hb : ((process_single_pair decode maskStr maskId (some v) items tk false).length
        == 0) = false := by
      rw [beq_eq_false_iff_ne]
      exact fun hc => h1 (List.length_eq_zero.mp hc)
    simp [fallbackLadder, hb]
  · have hb2 : ((process_single_pair decode maskStr maskId (some v) items
        topk_per_position false).length == 0) = false := by
      rw [beq_eq_false_iff_ne]
      exact fun hc => h2 (List.length_eq_zero.mp hc)
    simp [fallbackLadder, h1, hd, hb2]
  · have hb3 : ((process_single_pair decode maskStr maskId (some v) items
        topk_per_position true).length == 0) = false := by
      rw [beq_eq_false_iff_ne]
      exact fun hc => h3 (List.length_eq_zero.mp hc)
    simp [fallbackLadder, h1, h2, hd, hb3]
    exact h3
  · simp [fallbackLadder, h1, h2, h3, hd]

/-- Witness for C4: with no per-position rows every stage is empty, and the
ladder fails with the error naming the vocabulary and the prompt. -/
theorem c4_fallback_ladder_witness :
    fallbackLadder (fun _ => "") "[MASK]" 0 (some ["cat"]) [] 5 "p" =
      Except.error (PyErr.noValidSentence ["cat"] "p") ∧
    process_single_pair (fun _ => "") "[MASK]" 0 (some ["cat"]) [] 5 false = [] := by
  have h := c4_fallback_ladder (fun _ => "") "[MASK]" 0 ["cat"] [] 5 "p" (by decide)
  exact ⟨h.2.2.2 rfl rfl rfl, rfl⟩

theorem revisionLoopGo_total (dataKey : Nat → String)
    (B : Nat → List String → List String × List ℚ) (n_revision : Nat) :
    ∀ fuel i st, i ≤ n_revision + 1 → n_revision + 2 - i ≤ fuel →
      ∃ stf r, revisionLoopGo dataKey B n_revision fuel i st = some (stf, r) ∧
        r ≤ n_revision + 2 - i := by
  intro fuel
  induction fuel with
  | zero =>
    intro i st hi hf
    omega
  | succ fuel ih =>
    intro i st hi hf
    simp only [revisionLoopGo]
    by_cases hb : ((revisionStep dataKey B i st).seed.length == 0) = true
    · rw [if_pos hb]
      exact ⟨revisionStep dataKey B i st, 1, rfl, by omega⟩
    · rw [if_neg hb]
      by_cases hgt : i > n_revision
      · rw [if_pos hgt]
        exact ⟨revisionStep dataKey B i st, 1, rfl, by omega⟩
      · rw [if_neg hgt]
        obtain ⟨stf, r, hrec, hr⟩ := ih (i + 1) (revisionStep dataKey B i st)
          (by omega) (by omega)
        rw [hrec]
        exact ⟨stf, r + 1, rfl, by omega⟩

/-- C1 (amended): for every candidate set, every configured `n_revision`,
and every scoring backend — including an adversarial one whose best
sentences change and strictly improve every round — the iterative revision
loop terminates, and it executes at most `n_revision + 2` rounds (fuel
`n_revision + 2` always returns a final state; the claimed bound
`n_revision + 1` fails, see the counterexample). -/
theorem c1_loop_round_bound (dataKey : Nat → String)
    (B : Nat → List String → List String × List ℚ) (n_revision : Nat) (st : GenState) :
    ∃ stf r, revisionLoopGo dataKey B n_revision (n_revision + 2) 0 st = some (stf, r) ∧
      r ≤ n_revision + 2 := by
  obtain ⟨stf, r, h, hr⟩ := revisionLoopGo_total dataKey B n_revision (n_revision + 2) 0 st
    (by omega) (by omega)
  exact ⟨stf, r, h, by omega⟩

/-- Counterexample to C1 as stated: with `n_revision = 0` and the
adversarial backend `bImprove` (best sentence changes and strictly improves
every round), the revision loop does not terminate within
`n_revision + 1 = 1` rounds — it runs exactly 2 rounds. -/
theorem c1_loop_round_bound_counterexample :
    (revisionLoopGo dkRep bImprove 0 (0 + 1) 0 stImprove).isNone = true ∧
    (revisionLoopGo dkRep bImprove 0 (0 + 2) 0 stImprove).map Prod.snd = some 2 := by
  refine ⟨rfl, ?_⟩
  decide

theorem mem_filter_range (p : Nat → Bool) (n x : Nat) :
    x ∈ (List.range n).filter p ↔ x < n ∧ p x = true := by
  rw [List.mem_filter, List.mem_range]

theorem getD_map_eq (f : α → β) (l : List α) (x : Nat) (d : β) (da : α)
    (hx : x < l.length) : (l.map f).getD x d = f (l.getD x da) := by
  rw [List.getD_eq_getElem _ _ (by rw [List.length_map]; exact hx), List.getElem_map,
    List.getD_eq_getElem _ _ hx]

theorem getD_mem (l : List α) (x : Nat) (d : α) (hx : x < l.length) : l.getD x d ∈ l := by
  rw [List.getD_eq_getElem _ _ hx]
  exact List.getElem_mem _

theorem nodup_getD_inj (l : List Nat) (hnd : l.Nodup) (x y : Nat)
    (hx : x < l.length) (hy : y < l.length) (h : l.getD x 0 = l.getD y 0) : x = y := by
  rw [List.getD_eq_getElem _ _ hx, List.getD_eq_getElem _ _ hy] at h
  have := hnd.get_inj_iff (i := ⟨x, hx⟩) (j := ⟨y, hy⟩)
  exact congrArg Fin.val (this.mp h)

theorem foldl_lookup_skip (u : List (String × β)) (k : String) (acc : Option β)
    (h : ∀ p ∈ u, p.1 ≠ k) :
    u.foldl (fun acc p => if p.1 = k then some p.2 else acc) acc = acc := by
  induction u generalizing acc with
  | nil => rfl
  | cons p u ih =>
    rw [List.foldl_cons, if_neg (h p (List.mem_cons_self _ _))]
    exact ih _ (fun q hq => h q (List.mem_cons_of_mem _ hq))

theorem lookupLast_eq_none (u : List (String × β)) (k : String)
    (h : ∀ p ∈ u, p.1 ≠ k) : lookupLast u k = none :=
  foldl_lookup_skip u k none h

theorem foldl_lookup_unique (u : List (String × β)) (k : String) (v : β) :
    ∀ acc : Option β, ((k, v) ∈ u ∨ acc = some v) →
      (∀ p ∈ u, p.1 = k → p = (k, v)) →
      u.foldl (fun acc p => if p.1 = k then some p.2 else acc) acc = some v := by
  induction u with
  | nil =>
    intro acc hmem huniq
    rcases hmem with h | h
    · exact absurd h (List.not_mem_nil _)
    · exact h
  | cons p u ih =>
    intro acc hmem huniq
    rw [List.foldl_cons]
    by_cases hpk : p.1 = k
    · have hp := huniq p (List.mem_cons_self _ _) hpk
      refine ih _ (Or.inr ?_) (fun q hq hqk => huniq q (List.mem_cons_of_mem _ hq) hqk)
      rw [if_pos hpk, hp]
    · rcases hmem with h | h
      · rcases List.mem_cons.mp h with h1 | h1
        · exact absurd (by rw [← h1]) hpk
        · rw [if_neg hpk]
          exact ih acc (Or.inl h1)
            (fun q hq hqk => huniq q (List.mem_cons_of_mem _ hq) hqk)
      · rw [if_neg hpk]
        exact ih acc (Or.inr h)
          (fun q hq hqk => huniq q (List.mem_cons_of_mem _ hq) hqk)

theorem lookupLast_eq_some (u : List (String × β)) (k : String) (v : β)
    (hmem : (k, v) ∈ u) (huniq : ∀ p ∈ u, p.1 = k → p = (k, v)) :
    lookupLast u k = some v :=
  foldl_lookup_unique u k v none (Or.inl hmem) huniq

theorem revisionStep_wfLen (dataKey : Nat → String)
    (B : Nat → List String → List String × List ℚ) (i : Nat) (st : GenState) :
    wfLen (revisionStep dataKey B i st) := by
  unfold wfLen revisionStep
  simp [List.length_map]

theorem index_unfixedOf_lt (B : Nat → List String → List String × List ℚ)
    (i : Nat) (st : GenState) (y : Nat) (hy : y ∈ index_unfixedOf B i st) :
    y < (B i st.seed).1.length ∧
      ((B i st.seed).2.getD y 0 < (st.editPpl.getD y []).getLastD 0) := by
  obtain ⟨h1, h2⟩ := (mem_filter_range _ _ _).mp hy
  exact ⟨h1, of_decide_eq_true h2⟩

theorem index_fixedOf_lt (B : Nat → List String → List String × List ℚ)
    (i : Nat) (st : GenState) (y : Nat) (hy : y ∈ index_fixedOf B i st) :
    y < (B i st.seed).1.length ∧
      (B i st.seed).1.getD y "" = (st.edit.getD y []).getLastD "" := by
  obtain ⟨h1, h2⟩ := (mem_filter_range _ _ _).mp hy
  exact ⟨h1, beq_iff_eq.mp h2⟩

theorem revisionStep_histLenInv (dataKey : Nat → String)
    (B : Nat → List String → List String × List ℚ) (i : Nat) (st : GenState)
    (hwf : wfLen st) (hBlen : ((B i st.seed).1).length = st.seed.length)
    (h : histLenInv st) : histLenInv (revisionStep dataKey B i st) := by
  intro x hx
  have hx2 : x < (index_unfixedOf B i st).length := by
    simpa [revisionStep, List.length_map] using hx
  set y := (index_unfixedOf B i st).getD x 0 with hy
  have hymem : y ∈ index_unfixedOf B i st := getD_mem _ _ _ hx2
  have hylt : y < st.seed.length := by
    rw [← hBlen]
    exact (index_unfixedOf_lt B i st y hymem).1
  have hedit : (revisionStep dataKey B i st).edit.getD x [] =
      st.edit.getD y [] ++ [(B i st.seed).1.getD y ""] := by
    show ((index_unfixedOf B i st).map
      (fun x => st.edit.getD x [] ++ [(B i st.seed).1.getD x ""])).getD x [] = _
    rw [getD_map_eq _ _ x [] 0 hx2]
  have hppl : (revisionStep dataKey B i st).editPpl.getD x [] =
      st.editPpl.getD y [] ++ [(B i st.seed).2.getD y 0] := by
    show ((index_unfixedOf B i st).map
      (fun x => st.editPpl.getD x [] ++ [(B i st.seed).2.getD x 0])).getD x [] = _
    rw [getD_map_eq _ _ x [] 0 hx2]
  rw [hedit, hppl, List.length_append, List.length_append]
  have := h y hylt
  simp only [List.length_cons, List.length_nil]
  omega

theorem updOf_lenInv (dataKey : Nat → String)
    (B : Nat → List String → List String × List ℚ) (i : Nat) (st : GenState)
    (hwf : wfLen st) (hBlen : ((B i st.seed).1).length = st.seed.length)
    (h : histLenInv st) :
    ∀ p ∈ updOf dataKey B i st, (p.2.1).length = (p.2.2).length + 1 := by
  intro p hp
  obtain ⟨nn, hnn, hpe⟩ := List.mem_map.mp hp
  have hlt : nn < st.seed.length := by
    rw [← hBlen]
    exact (index_fixedOf_lt B i st nn hnn).1
  rw [← hpe]
  exact h nn hlt

theorem foldl_lookup_mem (u : List (String × β)) (k : String) (v : β) :
    ∀ acc : Option β,
      u.foldl (fun acc p => if p.1 = k then some p.2 else acc) acc = some v →
      (k, v) ∈ u ∨ acc = some v := by
  induction u with
  | nil =>
    intro acc h
    exact Or.inr h
  | cons p u ih =>
    intro acc h
    rw [List.foldl_cons] at h
    rcases ih _ h with h1 | h1
    · exact Or.inl (List.mem_cons_of_mem _ h1)
    · by_cases hpk : p.1 = k
      · rw [if_pos hpk] at h1
        have h2 : p.2 = v := by injection h1
        refine Or.inl (List.mem_cons.mpr (Or.inl ?_))
        rw [← hpk, ← h2]
      · rw [if_neg hpk] at h1
        exact Or.inr h1

theorem lookupLast_mem (u : List (String × β)) (k : String) (v : β)
    (h : lookupLast u k = some v) : (k, v) ∈ u := by
  rcases foldl_lookup_mem u k v none h with h1 | h1
  · exact h1
  · exact absurd h1 (by simp)

theorem dictUpdate_lenInv (d : String → Option (List String × List ℚ))
    (u : List (String × (List String × List ℚ)))
    (hd : outDictLenInv d) (hu : ∀ p ∈ u, (p.2.1).length = (p.2.2).length + 1) :
    outDictLenInv (dictUpdate d u) := by
  intro k h p hk
  unfold dictUpdate at hk
  cases hl : lookupLast u k with
  | none =>
    rw [hl] at hk
    exact hd k h p hk
  | some v =>
    rw [hl] at hk
    have hv : v = (h, p) := by injection hk
    have := hu (k, v) (lookupLast_mem u k v hl)
    rw [hv] at this
    exact this

theorem revisionStep_outDictLenInv (dataKey : Nat → String)
    (B : Nat → List String → List String × List ℚ) (i : Nat) (st : GenState)
    (hwf : wfLen st) (hBlen : ((B i st.seed).1).length = st.seed.length)
    (hinv : histLenInv st) (hout : outDictLenInv st.outputDict) :
    outDictLenInv (revisionStep dataKey B i st).outputDict := by
  show outDictLenInv (dictUpdate st.outputDict (updOf dataKey B i st))
  exact dictUpdate_lenInv _ _ hout (updOf_lenInv dataKey B i st hwf hBlen hinv)

theorem revisionLoopGo_lenInv (dataKey : Nat → String)
    (B : Nat → List String → List String × List ℚ) (n_revision : Nat)
    (hB : ∀ j s, ((B j s).1).length = s.length) :
    ∀ fuel i st stf r, wfLen st → histLenInv st → outDictLenInv st.outputDict →
      revisionLoopGo dataKey B n_revision fuel i st = some (stf, r) →
      wfLen stf ∧ histLenInv stf ∧ outDictLenInv stf.outputDict := by
  intro fuel
  induction fuel with
  | zero =>
    intro i st stf r _ _ _ h
    exact absurd h (by simp [revisionLoopGo])
  | succ fuel ih =>
    intro i st stf r hwf hinv hout h
    have hwf2 := revisionStep_wfLen dataKey B i st
    have hinv2 := revisionStep_histLenInv dataKey B i st hwf (hB i st.seed) hinv
    have hout2 := revisionStep_outDictLenInv dataKey B i st hwf (hB i st.seed) hinv hout
    simp only [revisionLoopGo] at h
    by_cases hb : ((revisionStep dataKey B i st).seed.length == 0) = true
    · rw [if_pos hb] at h
      have : stf = revisionStep dataKey B i st := by
        injection h with h1
        injection h1 with h2 _
        exact h2.symm
      subst this
      exact ⟨hwf2, hinv2, hout2⟩
    · rw [if_neg hb] at h
      by_cases hgt : i > n_revision
      · rw [if_pos hgt] at h
        have : stf = revisionStep dataKey B i st := by
          injection h with h1
          injection h1 with h2 _
          exact h2.symm
        subst this
        exact ⟨hwf2, hinv2, hout2⟩
      · rw [if_neg hgt] at h
        cases hrec : revisionLoopGo dataKey B n_revision fuel (i + 1)
            (revisionStep dataKey B i st) with
        | none =>
          rw [hrec] at h
          exact absurd h (by simp)
        | some r2 =>
          rw [hrec] at h
          have : stf = r2.1 := by
            injection h with h1
            injection h1 with h2 _
            exact h2.symm
          subst this
          exact ih (i + 1) (revisionStep dataKey B i st) r2.1 r2.2 hwf2 hinv2 hout2
            (by rw [hrec])

theorem finalUpdate_lenInv (dataKey : Nat → String) (st : GenState)
    (hwf : wfLen st) (hinv : histLenInv st) (hout : outDictLenInv st.outputDict) :
    outDictLenInv (finalUpdate dataKey st) := by
  unfold finalUpdate
  refine dictUpdate_lenInv _ _ hout (fun p hp => ?_)
  obtain ⟨nn, hnn, hpe⟩ := List.mem_map.mp hp
  have hlt : nn < st.seed.length := by
    rw [← hwf.2.2]
    exact List.mem_range.mp hnn
  rw [← hpe]
  exact hinv nn hlt

/-- C8: for every candidate entry in the final output map of the revision
phase, the edit history is exactly one snapshot longer than the score
history (the seed snapshot has no score), provided the initial state
satisfies the same invariant — and the invariant is preserved by every
per-round history extension of the loop. -/
theorem c8_history_lengths (dataKey : Nat → String)
    (B : Nat → List String → List String × List ℚ) (n_revision : Nat) (st : GenState)
    (hB : ∀ j s, ((B j s).1).length = s.length)
    (hwf : wfLen st) (hinv : histLenInv st) (hout : outDictLenInv st.outputDict) :
    outDictLenInv (revisionGenerate dataKey B n_revision st) ∧
    (∀ i st2, wfLen st2 → histLenInv st2 →
      histLenInv (revisionStep dataKey B i st2)) := by
  constructor
  · obtain ⟨stf, r, hgo, _⟩ := c1_loop_round_bound dataKey B n_revision st
    unfold revisionGenerate
    rw [hgo]
    obtain ⟨hwf2, hinv2, hout2⟩ := revisionLoopGo_lenInv dataKey B n_revision hB
      (n_revision + 2) 0 st stf r hwf hinv hout hgo
    exact finalUpdate_lenInv dataKey stf hwf2 hinv2 hout2
  · intro i st2 hwf2 hinv2
    exact revisionStep_histLenInv dataKey B i st2 hwf2 (hB i st2.seed) hinv2

/-- Witness for C8: running the revision phase on the concrete fixed-point
state finalizes the candidate with edit history `["a", "ab"]` and score
history `[2]`, whose lengths differ by exactly one. -/
theorem c8_history_lengths_witness :
    revisionGenerate dkRep bFix 1 stFix (dkRep 0) = some (["a", "ab"], [2]) ∧
    (["a", "ab"] : List String).length = ([2] : List ℚ).length + 1 := by
  have h := c8_history_lengths dkRep bFix 1 stFix
    (fun j s => rfl)
    ⟨rfl, rfl, rfl⟩
    (by
      intro x hx
      have hx0 : x = 0 := by
        simpa [stFix] using hx
      subst hx0
      rfl)
    (fun k h p hc => Option.noConfusion hc)
  have he : revisionGenerate dkRep bFix 1 stFix (dkRep 0) = some (["a", "ab"], [2]) := by
    decide
  exact ⟨he, h.1 (dkRep 0) ["a", "ab"] [2] he⟩

theorem revisionStep_key_absent (dataKey : Nat → String)
    (B : Nat → List String → List String × List ℚ) (i : Nat) (st : GenState) (k : String)
    (hwf : wfLen st) (hBlen : ((B i st.seed).1).length = st.seed.length)
    (hk : ∀ m ∈ st.dataIndex, dataKey m ≠ k) (ho : st.outputDict k = none) :
    (∀ m ∈ (revisionStep dataKey B i st).dataIndex, dataKey m ≠ k) ∧
      (revisionStep dataKey B i st).outputDict k = none := by
  constructor
  · intro m hm
    obtain ⟨y, hy, hym⟩ := List.mem_map.mp hm
    have hylt : y < st.dataIndex.length := by
      rw [hwf.2.2, ← hBlen]
      exact (index_unfixedOf_lt B i st y hy).1
    rw [← hym]
    exact hk _ (getD_mem _ _ _ hylt)
  · show dictUpdate st.outputDict (updOf dataKey B i st) k = none
    have hnone : lookupLast (updOf dataKey B i st) k = none := by
      refine lookupLast_eq_none _ _ (fun p hp => ?_)
      obtain ⟨nn, hnn, hpe⟩ := List.mem_map.mp hp
      have hlt : nn < st.dataIndex.length := by
        rw [hwf.2.2, ← hBlen]
        exact (index_fixedOf_lt B i st nn hnn).1
      rw [← hpe]
      exact hk _ (getD_mem _ _ _ hlt)
    unfold dictUpdate
    rw [hnone]
    exact ho

theorem finalUpdate_key_absent (dataKey : Nat → String) (st : GenState) (k : String)
    (hk : ∀ m ∈ st.dataIndex, dataKey m ≠ k) (ho : st.outputDict k = none) :
    finalUpdate dataKey st k = none := by
  unfold finalUpdate
  have hnone : lookupLast ((List.range st.dataIndex.length).map
      (fun n => (dataKey (st.dataIndex.getD n 0),
        (st.edit.getD n [], st.editPpl.getD n [])))) k = none := by
    refine lookupLast_eq_none _ _ (fun p hp => ?_)
    obtain ⟨nn, hnn, hpe⟩ := List.mem_map.mp hp
    have hlt : nn < st.dataIndex.length := List.mem_range.mp hnn
    rw [← hpe]
    exact hk _ (getD_mem _ _ _ hlt)
  unfold dictUpdate
  rw [hnone]
  exact ho

theorem revisionLoopGo_key_absent (dataKey : Nat → String)
    (B : Nat → List String → List String × List ℚ) (n_revision : Nat) (k : String)
    (hB : ∀ j s, ((B j s).1).length = s.length) :
    ∀ fuel i st stf r, wfLen st → (∀ m ∈ st.dataIndex, dataKey m ≠ k) →
      st.outputDict k = none →
      revisionLoopGo dataKey B n_revision fuel i st = some (stf, r) →
      finalUpdate dataKey stf k = none := by
  intro fuel
  induction fuel with
  | zero =>
    intro i st stf r _ _ _ h
    exact absurd h (by simp [revisionLoopGo])
  | succ fuel ih =>
    intro i st stf r hwf hk ho h
    have hwf2 := revisionStep_wfLen dataKey B i st
    obtain ⟨hk2, ho2⟩ := revisionStep_key_absent dataKey B i st k hwf (hB i st.seed) hk ho
    simp only [revisionLoopGo] at h
    by_cases hb : ((revisionStep dataKey B i st).seed.length == 0) = true
    · rw [if_pos hb] at h
      have : stf = revisionStep dataKey B i st := by
        injection h with h1
        injection h1 with h2 _
        exact h2.symm
      subst this
      exact finalUpdate_key_absent dataKey _ k hk2 ho2
    · rw [if_neg hb] at h
      by_cases hgt : i > n_revision
      · rw [if_pos hgt] at h
        have : stf = revisionStep dataKey B i st := by
          injection h with h1
          injection h1 with h2 _
          exact h2.symm
        subst this
        exact finalUpdate_key_absent dataKey _ k hk2 ho2
      · rw [if_neg hgt] at h
        cases hrec : revisionLoopGo dataKey B n_revision fuel (i + 1)
            (revisionStep dataKey B i st) with
        | none =>
          rw [hrec] at h
          exact absurd h (by simp)
        | some r2 =>
          rw [hrec] at h
          have : stf = r2.1 := by
            injection h with h1
            injection h1 with h2 _
            exact h2.symm
          subst this
          exact ih (i + 1) (revisionStep dataKey B i st) r2.1 r2.2 hwf2 hk2 ho2
            (by rw [hrec])

/-- C3: in each revision round, with a deterministic per-sentence score
(`backendSpec`), distinct candidate keys and a not-yet-finalized active set,
every active candidate `x` takes exactly one of three transitions:
if its best re-ranked sentence equals its last recorded snapshot, its new
score cannot strictly improve, it is finalized into the output map with its
full edit and score histories, and it leaves the active set; otherwise it
remains active if and only if its new best score is strictly lower than its
last recorded score, in which case it survives with the new snapshot and
score appended to its histories, and it is not finalized this round; a
candidate that neither matches its last snapshot nor strictly improves is
removed from the active set without its history being finalized, and its key
is absent from the final output map however the loop continues. -/
theorem c3_round_transitions (dataKey : Nat → String) (score : String → ℚ)
    (B : Nat → List String → List String × List ℚ) (n_revision i : Nat) (st : GenState)
    (hB : backendSpec score B)
    (hwf : wfLen st)
    (hlink : scoreLink score st)
    (hnd : st.dataIndex.Nodup)
    (hfresh : outputFresh dataKey st)
    (hdk : Function.Injective dataKey)
    (x : Nat) (hx : x < st.seed.length) :
    ((B i st.seed).1.getD x "" = (st.edit.getD x []).getLastD "" →
      ¬ ((B i st.seed).2.getD x 0 < (st.editPpl.getD x []).getLastD 0) ∧
      (revisionStep dataKey B i st).outputDict (dataKey (st.dataIndex.getD x 0)) =
        some (st.edit.getD x [], st.editPpl.getD x []) ∧
      st.dataIndex.getD x 0 ∉ (revisionStep dataKey B i st).dataIndex) ∧
    ((B i st.seed).1.getD x "" ≠ (st.edit.getD x []).getLastD "" →
      (st.dataIndex.getD x 0 ∈ (revisionStep dataKey B i st).dataIndex ↔
        (B i st.seed).2.getD x 0 < (st.editPpl.getD x []).getLastD 0) ∧
      (revisionStep dataKey B i st).outputDict (dataKey (st.dataIndex.getD x 0)) = none ∧
      ((B i st.seed).2.getD x 0 < (st.editPpl.getD x []).getLastD 0 →
        (st.dataIndex.getD x 0,
          (st.edit.getD x [] ++ [(B i st.seed).1.getD x ""],
           st.editPpl.getD x [] ++ [(B i st.seed).2.getD x 0])) ∈
          (revisionStep dataKey B i st).dataIndex.zip
            ((revisionStep dataKey B i st).edit.zip
              (revisionStep dataKey B i st).editPpl))) ∧
    ((B i st.seed).1.getD x "" ≠ (st.edit.getD x []).getLastD "" →
      ¬ ((B i st.seed).2.getD x 0 < (st.editPpl.getD x []).getLastD 0) →
      st.dataIndex.getD x 0 ∉ (revisionStep dataKey B i st).dataIndex ∧
      (∀ fuel i2 stf r,
        revisionLoopGo dataKey B n_revision fuel i2 (revisionStep dataKey B i st) =
          some (stf, r) →
        finalUpdate dataKey stf (dataKey (st.dataIndex.getD x 0)) = none)) := by
  have hBlen := (hB i st.seed).1
  have hppl := (hB i st.seed).2
  have hxB : x < (B i st.seed).1.length := by
    rw [hBlen]
    exact hx
  have hxD : x < st.dataIndex.length := by
    rw [hwf.2.2]
    exact hx
  have hjmem : st.dataIndex.getD x 0 ∈ st.dataIndex := getD_mem _ _ _ hxD
  have hscore : (B i st.seed).2.getD x 0 = score ((B i st.seed).1.getD x "") := by
    rw [hppl]
    exact getD_map_eq score _ x 0 "" hxB
  have hmem_iff : st.dataIndex.getD x 0 ∈ (revisionStep dataKey B i st).dataIndex ↔
      x ∈ index_unfixedOf B i st := by
    constructor
    · intro hm
      obtain ⟨y, hy, hym⟩ := List.mem_map.mp hm
      have hylt : y < st.dataIndex.length := by
        rw [hwf.2.2, ← hBlen]
        exact (index_unfixedOf_lt B i st y hy).1
      have hyx := nodup_getD_inj st.dataIndex hnd y x hylt hxD hym
      rw [← hyx]
      exact hy
    · intro hxm
      exact List.mem_map.mpr ⟨x, hxm, rfl⟩
  have hunfix_iff : x ∈ index_unfixedOf B i st ↔
      (B i st.seed).2.getD x 0 < (st.editPpl.getD x []).getLastD 0 := by
    rw [index_unfixedOf, mem_filter_range]
    constructor
    · exact fun h => of_decide_eq_true h.2
    · exact fun h => ⟨hxB, decide_eq_true h⟩
  have hfix_iff : x ∈ index_fixedOf B i st ↔
      (B i st.seed).1.getD x "" = (st.edit.getD x []).getLastD "" := by
    rw [index_fixedOf, mem_filter_range]
    constructor
    · exact fun h => beq_iff_eq.mp h.2
    · exact fun h => ⟨hxB, beq_iff_eq.mpr h⟩
  have houtnone : (B i st.seed).1.getD x "" ≠ (st.edit.getD x []).getLastD "" →
      (revisionStep dataKey B i st).outputDict (dataKey (st.dataIndex.getD x 0)) = none := by
    intro hnfix
    show dictUpdate st.outputDict (updOf dataKey B i st)
      (dataKey (st.dataIndex.getD x 0)) = none
    have hnone : lookupLast (updOf dataKey B i st)
        (dataKey (st.dataIndex.getD x 0)) = none := by
      refine lookupLast_eq_none _ _ (fun p hp => ?_)
      obtain ⟨nn, hnn, hpe⟩ := List.mem_map.mp hp
      have hnnlt : nn < st.dataIndex.length := by
        rw [hwf.2.2, ← hBlen]
        exact (index_fixedOf_lt B i st nn hnn).1
      intro hpk
      rw [← hpe] at hpk
      have hnx : nn = x :=
        nodup_getD_inj st.dataIndex hnd nn x hnnlt hxD (hdk hpk)
      rw [hnx] at hnn
      exact hnfix (hfix_iff.mp hnn)
    unfold dictUpdate
    rw [hnone]
    exact hfresh _ hjmem
  refine ⟨fun hfix => ?_, fun hnfix => ?_, fun hnfix hnimp => ?_⟩
  · have hnoimp : ¬ ((B i st.seed).2.getD x 0 < (st.editPpl.getD x []).getLastD 0) := by
      rw [hscore, hfix, ← hlink x hx]
      exact lt_irrefl _
    refine ⟨hnoimp, ?_, ?_⟩
    · show dictUpdate st.outputDict (updOf dataKey B i st)
        (dataKey (st.dataIndex.getD x 0)) = _
      have hsome : lookupLast (updOf dataKey B i st)
          (dataKey (st.dataIndex.getD x 0)) =
          some (st.edit.getD x [], st.editPpl.getD x []) := by
        refine lookupLast_eq_some _ _ _ ?_ ?_
        · exact List.mem_map.mpr ⟨x, hfix_iff.mpr hfix, rfl⟩
        · intro p hp hpk
          obtain ⟨nn, hnn, hpe⟩ := List.mem_map.mp hp
          have hnnlt : nn < st.dataIndex.length := by
            rw [hwf.2.2, ← hBlen]
            exact (index_fixedOf_lt B i st nn hnn).1
          rw [← hpe] at hpk
          have hnx : nn = x :=
            nodup_getD_inj st.dataIndex hnd nn x hnnlt hxD (hdk hpk)
          rw [← hpe, hnx]
      unfold dictUpdate
      rw [hsome]
    · intro hm
      exact hnoimp (hunfix_iff.mp (hmem_iff.mp hm))
  · refine ⟨by rw [hmem_iff]; exact hunfix_iff, houtnone hnfix, fun himp => ?_⟩
    have hz : (revisionStep dataKey B i st).dataIndex.zip
        ((revisionStep dataKey B i st).edit.zip (revisionStep dataKey B i st).editPpl) =
        (index_unfixedOf B i st).map (fun y => (st.dataIndex.getD y 0,
          (st.edit.getD y [] ++ [(B i st.seed).1.getD y ""],
           st.editPpl.getD y [] ++ [(B i st.seed).2.getD y 0]))) := by
      show ((index_unfixedOf B i st).map _).zip
        (((index_unfixedOf B i st).map _).zip ((index_unfixedOf B i st).map _)) = _
      rw [List.zip_map', List.zip_map']
    rw [hz]
    exact List.mem_map.mpr ⟨x, hunfix_iff.mpr himp, rfl⟩
  · have hnotmem : st.dataIndex.getD x 0 ∉ (revisionStep dataKey B i st).dataIndex := by
      intro hm
      exact hnimp (hunfix_iff.mp (hmem_iff.mp hm))
    refine ⟨hnotmem, fun fuel i2 stf r hgo => ?_⟩
    have hk2 : ∀ m ∈ (revisionStep dataKey B i st).dataIndex,
        dataKey m ≠ dataKey (st.dataIndex.getD x 0) := by
      intro m hm heq
      have := hdk heq
      rw [this] at hm
      exact hnotmem hm
    exact revisionLoopGo_key_absent dataKey B n_revision
      (dataKey (st.dataIndex.getD x 0)) (fun j s => (hB j s).1) fuel i2
      (revisionStep dataKey B i st) stf r (revisionStep_wfLen dataKey B i st)
      hk2 (houtnone hnfix) hgo

theorem dkRep_inj : Function.Injective dkRep := by
  intro a b h
  have h2 := congrArg (fun s => s.data.length) h
  simpa [dkRep, List.asString] using h2

/-- Witness for C3 at the concrete fixed-point instance: the candidate whose
best sentence equals its last snapshot is finalized with its full histories
and leaves the active set. -/
theorem c3_round_transitions_witness :
    (revisionStep dkRep bFix 0 stFix).outputDict (dkRep 0) = some (["a", "ab"], [2]) ∧
    (0 : Nat) ∉ (revisionStep dkRep bFix 0 stFix).dataIndex := by
  have h := c3_round_transitions dkRep scoreLen bFix 1 0 stFix
    (fun i s => ⟨rfl, rfl⟩)
    ⟨rfl, rfl, rfl⟩
    (by
      intro x hx
      have hx1 : x < 1 := hx
      have hx0 : x = 0 := by omega
      subst hx0
      rfl)
    (by decide)
    (fun j hj => rfl)
    dkRep_inj
    0 (by decide)
  obtain ⟨h1, _, _⟩ := h
  have hfix : (bFix 0 stFix.seed).1.getD 0 "" = (stFix.edit.getD 0 []).getLastD "" := rfl
  exact ⟨(h1 hfix).2.1, (h1 hfix).2.2⟩

theorem isPlainChar_ne (c : Char) (h : isPlainChar c = true) :
    c ≠ '|' ∧ c ≠ '.' ∧ c ≠ '\\' ∧ c ≠ '[' := by
  refine ⟨?_, ?_, ?_, ?_⟩ <;> (rintro rfl; exact absurd h (by decide))

theorem isPlainChar_word (c : Char) (h : isPlainChar c = true) : isWordChar c = true := by
  unfold isWordChar
  unfold isPlainChar at h
  rw [h]
  rfl

theorem parse_plain (t : List Char) (hplain : ∀ c ∈ t, isPlainChar c = true) :
    parseRegexAux false [] t = [litBranch t] := by
  induction t with
  | nil => rfl
  | cons c rest ih =>
    obtain ⟨h1, h2, h3, h4⟩ := isPlainChar_ne c (hplain c (List.mem_cons_self _ _))
    unfold parseRegexAux
    rw [if_neg h1, if_neg h2, if_neg h3, if_neg h4,
      ih (fun d hd => hplain d (List.mem_cons_of_mem _ hd))]
    rfl

theorem parse_plain_append_wb (t : List Char) (hplain : ∀ c ∈ t, isPlainChar c = true) :
    parseRegexAux false [] (t ++ ['\\', 'b']) = [litBranch t ++ [RAtom.wordB]] := by
  induction t with
  | nil => rfl
  | cons c rest ih =>
    obtain ⟨h1, h2, h3, h4⟩ := isPlainChar_ne c (hplain c (List.mem_cons_self _ _))
    rw [List.cons_append]
    unfold parseRegexAux
    rw [if_neg h1, if_neg h2, if_neg h3, if_neg h4,
      ih (fun d hd => hplain d (List.mem_cons_of_mem _ hd))]
    rfl

theorem parse_wordBoundPat (t : String) (hplain : ∀ c ∈ t.data, isPlainChar c = true) :
    parseRegex (wordBoundPat t) =
      [RAtom.wordB :: (litBranch t.data ++ [RAtom.wordB])] := by
  unfold parseRegex wordBoundPat
  have hdata : ("\\b" ++ t ++ "\\b").data = '\\' :: 'b' :: (t.data ++ ['\\', 'b']) := by
    rw [String.data_append, String.data_append]
    rfl
  rw [hdata]
  show consAtom RAtom.wordB (parseRegexAux false [] (t.data ++ ['\\', 'b'])) = _
  rw [parse_plain_append_wb t.data hplain]
  rfl

theorem matchBranch_lits_append (t : List Char) (rest2 : List RAtom) :
    ∀ prev s, matchBranch (litBranch t ++ rest2) prev s =
      if listStarts t s then
        (matchBranch rest2 (t.getLast? <|> prev) (s.drop t.length)).map
          (fun p => (t ++ p.1, p.2))
      else none := by
  induction t with
  | nil =>
    intro prev s
    have hst : listStarts [] s = true := rfl
    rw [if_pos hst]
    show matchBranch rest2 prev s =
      Option.map (fun p => (([] : List Char) ++ p.1, p.2)) (matchBranch rest2 prev s)
    cases matchBranch rest2 prev s <;> rfl
  | cons a t2 ih =>
    intro prev s
    cases s with
    | nil =>
      rw [if_neg (by rw [listStarts]; exact Bool.false_ne_true)]
      rfl
    | cons b s2 =>
      by_cases hba : b = a
      · subst hba
        show (if b = b then ((matchBranch (litBranch t2 ++ rest2) (some b) s2).map
            (fun p => (b :: p.1, p.2))) else none) = _
        rw [if_pos rfl, ih (some b) s2]
        have hstarts : listStarts (b :: t2) (b :: s2) = listStarts t2 s2 := by
          rw [listStarts]
          simp
        rw [hstarts]
        have hlast : ((b :: t2).getLast? <|> prev) = (t2.getLast? <|> some b) := by
          cases t2 with
          | nil => rfl
          | cons c t3 =>
            rw [List.getLast?_cons_cons]
            cases hl : (c :: t3).getLast? with
            | none =>
              exact absurd hl (by
                rw [List.getLast?_eq_getElem?]
                simp)
            | some v => rfl
        rw [hlast]
        by_cases hs : listStarts t2 s2 = true
        · rw [if_pos hs, if_pos hs]
          show _ = (matchBranch rest2 (t2.getLast? <|> some b)
            ((b :: s2).drop (t2.length + 1))).map (fun p => ((b :: t2) ++ p.1, p.2))
          rw [List.drop_succ_cons]
          cases matchBranch rest2 (t2.getLast? <|> some b) (s2.drop t2.length) <;> rfl
        · rw [if_neg hs, if_neg hs]
          rfl
      · show (if b = a then ((matchBranch (litBranch t2 ++ rest2) (some b) s2).map
            (fun p => (b :: p.1, p.2))) else none) = _
        rw [if_neg hba]
        have hstarts : listStarts (a :: t2) (b :: s2) = false := by
          rw [listStarts]
          have : (a == b) = false := beq_eq_false_iff_ne.mpr (fun h => hba h.symm)
          rw [this]
          rfl
        rw [hstarts]
        rfl

theorem matchBranch_lits (t : List Char) (prev : Option Char) (s : List Char) :
    matchBranch (litBranch t) prev s =
      if listStarts t s then some (t, s.drop t.length) else none := by
  have h := matchBranch_lits_append t [] prev s
  rw [List.append_nil] at h
  rw [h]
  by_cases hs : listStarts t s = true
  · rw [if_pos hs, if_pos hs]
    show some (t ++ [], s.drop t.length) = some (t, s.drop t.length)
    rw [List.append_nil]
  · rw [if_neg hs, if_neg hs]

theorem matchAlts_single (br : List RAtom) (prev : Option Char) (s : List Char) :
    matchAlts [br] prev s = matchBranch br prev s := by
  cases h : matchBranch br prev s <;> simp [matchAlts, h]

theorem listStarts_length (t : List Char) :
    ∀ s, listStarts t s = true → t.length ≤ s.length := by
  induction t with
  | nil =>
    intro s _
    simp
  | cons a t2 ih =>
    intro s h
    cases s with
    | nil => exact absurd h (by rw [listStarts]; exact Bool.false_ne_true)
    | cons b s2 =>
      rw [listStarts, Bool.and_eq_true] at h
      have := ih s2 h.2
      simp only [List.length_cons]
      omega

theorem listStarts_head (a : Char) (t2 s : List Char)
    (h : listStarts (a :: t2) s = true) : s.head? = some a := by
  cases s with
  | nil => exact absurd h (by rw [listStarts]; exact Bool.false_ne_true)
  | cons b s2 =>
    rw [listStarts, Bool.and_eq_true] at h
    rw [List.head?_cons, beq_iff_eq.mp h.1]

theorem getLast?_mem_of_ne (t : List Char) (ht : t ≠ []) :
    ∃ c, t.getLast? = some c ∧ c ∈ t := by
  cases hl : t.getLast? with
  | none =>
    rw [List.getLast?_eq_none_iff] at hl
    exact absurd hl ht
  | some c =>
    exact ⟨c, rfl, List.mem_of_mem_getLast? hl⟩

theorem matchBranch_wb (t : List Char) (ht : t ≠ [])
    (hplain : ∀ c ∈ t, isPlainChar c = true) (prev : Option Char) (s : List Char) :
    matchBranch (RAtom.wordB :: (litBranch t ++ [RAtom.wordB])) prev s =
      if (!isWordCharOpt prev && listStarts t s &&
          !isWordCharOpt ((s.drop t.length).head?)) = true then
        some (t, s.drop t.length)
      else none := by
  obtain ⟨lc, hlc, hlcmem⟩ := getLast?_mem_of_ne t ht
  have hwlc : isWordCharOpt (some lc) = true := isPlainChar_word lc (hplain lc hlcmem)
  show (if isWordCharOpt prev ≠ isWordCharOpt s.head? then
      matchBranch (litBranch t ++ [RAtom.wordB]) prev s else none) = _
  rw [matchBranch_lits_append, hlc]
  by_cases hs : listStarts t s = true
  · have hhead : isWordCharOpt s.head? = true := by
      cases t with
      | nil => exact absurd rfl ht
      | cons a t2 =>
        rw [listStarts_head a t2 s hs]
        exact isPlainChar_word a (hplain a (List.mem_cons_self _ _))
    have hinner : matchBranch [RAtom.wordB] (some lc) (s.drop t.length) =
        if isWordCharOpt ((s.drop t.length).head?) = false then
          some ([], s.drop t.length) else none := by
      show (if isWordCharOpt (some lc) ≠ isWordCharOpt ((s.drop t.length).head?) then
          some ([], s.drop t.length) else none) = _
      rw [hwlc]
      by_cases hq : isWordCharOpt ((s.drop t.length).head?) = false
      · rw [if_pos hq, if_pos (by rw [hq]; decide)]
      · have hq2 : isWordCharOpt ((s.drop t.length).head?) = true :=
          eq_true_of_ne_false hq
        rw [if_neg hq, if_neg (by rw [hq2]; decide)]
    have horelse : (some lc <|> prev) = some lc := rfl
    rw [if_pos hs, hhead, horelse, hinner]
    by_cases hp : isWordCharOpt prev = true
    · have hne : ¬ (isWordCharOpt prev ≠ true) := fun h => h hp
      rw [if_neg hne, hp]
      have hcond : (!true && listStarts t s && !isWordCharOpt ((s.drop t.length).head?)) =
          false := by
        rw [Bool.not_true, Bool.false_and, Bool.false_and]
      rw [hcond]
      simp
    · have hp2 : isWordCharOpt prev = false := Bool.eq_false_iff.mpr hp
      rw [if_pos (by rw [hp2]; decide), hp2]
      by_cases hq : isWordCharOpt ((s.drop t.length).head?) = false
      · rw [if_pos hq, hq]
        have hcond : (!false && listStarts t s && !false) = true := by
          rw [Bool.not_false, Bool.true_and, hs, Bool.and_true]
        rw [hcond]
        show Option.map (fun p => (t ++ p.1, p.2)) (some ([], s.drop t.length)) = _
        rw [if_pos rfl]
        show some (t ++ [], s.drop t.length) = some (t, s.drop t.length)
        rw [List.append_nil]
      · have hq2 : isWordCharOpt ((s.drop t.length).head?) = true :=
          eq_true_of_ne_false hq
        rw [if_neg hq, hq2]
        have hcond : (!false && listStarts t s && !true) = false := by
          rw [Bool.not_true, Bool.and_false]
        rw [hcond]
        simp
  · have hs2 : listStarts t s = false := Bool.eq_false_iff.mpr hs
    have hcond : (!isWordCharOpt prev && listStarts t s &&
        !isWordCharOpt ((s.drop t.length).head?)) = false := by
      rw [hs2, Bool.and_false, Bool.false_and]
    rw [hcond, if_neg hs]
    by_cases hp : isWordCharOpt prev ≠ isWordCharOpt s.head?
    · rw [if_pos hp]
      simp
    · rw [if_neg hp]
      simp

theorem bool_and_reorder (a b c : Bool) : (!a && b && !c) = (b && !a && !c) := by
  revert a b c
  decide

theorem listStarts_nil_false (t : List Char) (ht : t ≠ []) : listStarts t [] = false := by
  cases t with
  | nil => exact absurd rfl ht
  | cons a t2 => rfl

theorem wordOccSplit_nil (t : List Char) (ht : t ≠ []) (u : List Char) :
    wordOccSplit t u [] = false := by
  unfold wordOccSplit
  rw [listStarts_nil_false t ht, Bool.false_and, Bool.false_and]

theorem isEmpty_false_of_ne (t : List Char) (ht : t ≠ []) : t.isEmpty = false := by
  cases t with
  | nil => exact absurd rfl ht
  | cons a t2 => rfl

theorem scan_wb_nil (t : List Char) (ht : t ≠ [])
    (hplain : ∀ c ∈ t, isPlainChar c = true) (fuel : Nat) (prev : Option Char) :
    scanAllGo [RAtom.wordB :: (litBranch t ++ [RAtom.wordB])] fuel prev [] = [] := by
  have hma : matchAlts [RAtom.wordB :: (litBranch t ++ [RAtom.wordB])] prev [] = none := by
    rw [matchAlts_single, matchBranch_wb t ht hplain]
    rw [listStarts_nil_false t ht, Bool.and_false, Bool.false_and]
    rfl
  cases fuel with
  | zero =>
    show (match matchAlts [RAtom.wordB :: (litBranch t ++ [RAtom.wordB])] prev [] with
      | some p => [p.1] | none => []) = []
    rw [hma]
  | succ fuel =>
    show (match matchAlts [RAtom.wordB :: (litBranch t ++ [RAtom.wordB])] prev [] with
      | some p => [p.1] | none => []) = []
    rw [hma]

theorem scan_wb_iff (t : List Char) (ht : t ≠ [])
    (hplain : ∀ c ∈ t, isPlainChar c = true) :
    ∀ fuel s2 s1, s2.length ≤ fuel →
      (scanAllGo [RAtom.wordB :: (litBranch t ++ [RAtom.wordB])] fuel s1.getLast? s2 ≠ []
        ↔ ∃ u v, s2 = u ++ v ∧ wordOccSplit t (s1 ++ u) v = true) := by
  intro fuel
  induction fuel with
  | zero =>
    intro s2 s1 hlen
    cases s2 with
    | nil =>
      rw [scan_wb_nil t ht hplain]
      constructor
      · intro h
        exact absurd rfl h
      · rintro ⟨u, v, huv, hsplit⟩
        obtain ⟨hu, hv⟩ := List.append_eq_nil.mp huv.symm
        subst hv
        rw [wordOccSplit_nil t ht] at hsplit
        exact absurd hsplit (by decide)
    | cons c r =>
      simp at hlen
  | succ fuel ih =>
    intro s2 s1 hlen
    cases s2 with
    | nil =>
      rw [scan_wb_nil t ht hplain]
      constructor
      · intro h
        exact absurd rfl h
      · rintro ⟨u, v, huv, hsplit⟩
        obtain ⟨hu, hv⟩ := List.append_eq_nil.mp huv.symm
        subst hv
        rw [wordOccSplit_nil t ht] at hsplit
        exact absurd hsplit (by decide)
    | cons c r =>
      have hma : matchAlts [RAtom.wordB :: (litBranch t ++ [RAtom.wordB])]
          s1.getLast? (c :: r) =
          if wordOccSplit t s1 (c :: r) = true then
            some (t, (c :: r).drop t.length) else none := by
        rw [matchAlts_single, matchBranch_wb t ht hplain]
        rw [wordOccSplit, bool_and_reorder]
      simp only [scanAllGo]
      by_cases hcond : wordOccSplit t s1 (c :: r) = true
      · rw [hma, if_pos hcond]
        show ((if t.isEmpty then
            [] :: scanAllGo _ fuel (some c) r
          else t :: scanAllGo _ fuel (some (t.getLastD c)) ((c :: r).drop t.length)) ≠ [])
          ↔ _
        rw [isEmpty_false_of_ne t ht]
        constructor
        · intro _
          refine ⟨[], c :: r, rfl, ?_⟩
          rw [List.append_nil]
          exact hcond
        · intro _
          simp
      · have hcond2 : wordOccSplit t s1 (c :: r) = false := Bool.eq_false_iff.mpr hcond
        rw [hma, if_neg hcond]
        show scanAllGo [RAtom.wordB :: (litBranch t ++ [RAtom.wordB])] fuel (some c) r ≠ []
          ↔ _
        have hprev : (some c : Option Char) = (s1 ++ [c]).getLast? := by
          rw [List.getLast?_concat]
        rw [hprev, ih r (s1 ++ [c]) (by simpa using hlen)]
        constructor
        · rintro ⟨u, v, huv, hsplit⟩
          refine ⟨c :: u, v, by rw [huv, List.cons_append], ?_⟩
          have hassoc : s1 ++ c :: u = (s1 ++ [c]) ++ u := by
            rw [List.append_assoc, List.singleton_append]
          rw [hassoc]
          exact hsplit
        · rintro ⟨u, v, huv, hsplit⟩
          cases u with
          | nil =>
            rw [List.nil_append] at huv
            rw [List.append_nil, ← huv] at hsplit
            rw [hsplit] at hcond2
            exact absurd hcond2 (by decide)
          | cons c2 u2 =>
            have hc2 : c2 = c ∧ r = u2 ++ v := by
              rw [List.cons_append] at huv
              exact ⟨(List.cons.injEq _ _ _ _ ▸ huv).1.symm, (List.cons.injEq _ _ _ _ ▸ huv).2⟩
            obtain ⟨hc2e, hru⟩ := hc2
            refine ⟨u2, v, hru, ?_⟩
            have hassoc : (s1 ++ [c]) ++ u2 = s1 ++ c :: u2 := by
              rw [List.append_assoc, List.singleton_append]
            rw [hassoc, ← hc2e]
            exact hsplit

theorem take_getLast?_eq (s : List Char) (j : Nat) (hj : j < s.length) :
    (s.take (j + 1)).getLast? = some (s.getD j ' ') := by
  rw [List.getLast?_eq_getElem?]
  have hlen : (s.take (j + 1)).length = j + 1 := by
    rw [List.length_take]
    omega
  rw [hlen]
  simp only [Nat.add_sub_cancel]
  rw [List.getElem?_take_of_lt (by omega), List.getElem?_eq_getElem hj,
    List.getD_eq_getElem?_getD, List.getElem?_eq_getElem hj]
  rfl

theorem isWordCharOpt_getElem? (s : List Char) (k : Nat) :
    (!isWordCharOpt s[k]?) = (k == s.length || !isWordChar (s.getD k ' ')) := by
  by_cases hk : k < s.length
  · rw [List.getElem?_eq_getElem hk]
    have hne : (k == s.length) = false := beq_false_of_ne (by omega)
    rw [hne, Bool.false_or, List.getD_eq_getElem?_getD, List.getElem?_eq_getElem hk]
    rfl
  · have hnone : s[k]? = none := by
      rw [List.getElem?_eq_none_iff]
      omega
    rw [hnone]
    have hgd : s.getD k ' ' = ' ' := by
      rw [List.getD_eq_getElem?_getD, hnone]
      rfl
    rw [hgd]
    show true = (k == s.length || true)
    rw [Bool.or_true]

theorem wordOccSplit_take_drop (t s : List Char) (i : Nat) (hi : i ≤ s.length) :
    wordOccSplit t (s.take i) (s.drop i) = wordOccAt t s i := by
  unfold wordOccSplit wordOccAt
  have e2 : (!isWordCharOpt ((s.take i).getLast?)) =
      (i == 0 || !isWordChar (s.getD (i - 1) ' ')) := by
    cases i with
    | zero => rfl
    | succ j =>
      rw [take_getLast?_eq s j (by omega)]
      show (!isWordChar (s.getD j ' ')) = _
      have hne : ((j + 1 : Nat) == 0) = false := beq_false_of_ne (by omega)
      rw [hne, Bool.false_or, Nat.add_sub_cancel]
  have e3 : (!isWordCharOpt (((s.drop i).drop t.length).head?)) =
      (i + t.length == s.length || !isWordChar (s.getD (i + t.length) ' ')) := by
    rw [List.drop_drop, List.head?_drop, isWordCharOpt_getElem?]
  rw [e2, e3]

theorem hasWholeWord_iff_split (t s : List Char) :
    hasWholeWord t s = true ↔ ∃ u v, s = u ++ v ∧ wordOccSplit t u v = true := by
  unfold hasWholeWord
  rw [List.any_eq_true]
  constructor
  · rintro ⟨i, hi, hocc⟩
    have hile : i ≤ s.length := by
      have := List.mem_range.mp hi
      omega
    refine ⟨s.take i, s.drop i, (List.take_append_drop i s).symm, ?_⟩
    rw [wordOccSplit_take_drop t s i hile]
    exact hocc
  · rintro ⟨u, v, rfl, hsplit⟩
    refine ⟨u.length, List.mem_range.mpr (by
      rw [List.length_append]
      omega), ?_⟩
    rw [← wordOccSplit_take_drop t (u ++ v) u.length (by
      rw [List.length_append]
      omega)]
    rw [List.take_left, List.drop_left]
    exact hsplit

theorem dedup_replicate_succ (n : Nat) (t : String) :
    (List.replicate (n + 1) t).dedup = [t] := by
  induction n with
  | zero => simp
  | succ k ih =>
    rw [List.replicate_succ, List.dedup_cons_of_mem (by simp [List.mem_replicate]), ih]

theorem asString_data (s : String) : s.data.asString = s := rfl

theorem scan_lits_replicate (t : List Char) (ht : t ≠ []) :
    ∀ fuel s prev, scanAllGo [litBranch t] fuel prev s =
      List.replicate (countOccGo t fuel s) t := by
  intro fuel
  induction fuel with
  | zero =>
    intro s prev
    cases s with
    | nil =>
      show (match matchAlts [litBranch t] prev [] with
        | some p => [p.1] | none => []) = _
      rw [matchAlts_single, matchBranch_lits, if_neg (by
        rw [listStarts_nil_false t ht]
        exact Bool.false_ne_true)]
      rfl
    | cons c s2 => rfl
  | succ fuel ih =>
    intro s prev
    cases s with
    | nil =>
      show (match matchAlts [litBranch t] prev [] with
        | some p => [p.1] | none => []) = _
      rw [matchAlts_single, matchBranch_lits, if_neg (by
        rw [listStarts_nil_false t ht]
        exact Bool.false_ne_true)]
      rfl
    | cons c s2 =>
      have hma := matchAlts_single (litBranch t) prev (c :: s2)
      rw [matchBranch_lits] at hma
      simp only [scanAllGo, countOccGo]
      rw [hma]
      by_cases hst : listStarts t (c :: s2) = true
      · rw [if_pos hst]
        have hcond : (!t.isEmpty && listStarts t (c :: s2)) = true := by
          rw [isEmpty_false_of_ne t ht, hst]
          rfl
        rw [hcond]
        show (if t.isEmpty then _ else
          t :: scanAllGo [litBranch t] fuel (some (t.getLastD c)) ((c :: s2).drop t.length)) = _
        rw [isEmpty_false_of_ne t ht]
        show t :: scanAllGo [litBranch t] fuel (some (t.getLastD c)) ((c :: s2).drop t.length) = _
        rw [ih ((c :: s2).drop t.length) (some (t.getLastD c))]
        show t :: List.replicate (countOccGo t fuel ((c :: s2).drop t.length)) t =
          List.replicate (1 + countOccGo t fuel ((c :: s2).drop t.length)) t
        rw [Nat.add_comm 1 (countOccGo t fuel ((c :: s2).drop t.length)), List.replicate_succ]
      · rw [if_neg hst]
        have hcond : (!t.isEmpty && listStarts t (c :: s2)) = false := by
          rw [Bool.eq_false_iff.mpr hst, Bool.and_false]
        rw [hcond]
        show scanAllGo [litBranch t] fuel (some c) s2 = _
        exact ih s2 (some c)

theorem reFindall_plain (t s : String) (ht : t.data ≠ [])
    (hplain : ∀ c ∈ t.data, isPlainChar c = true) :
    reFindall t s = List.replicate (countOcc t.data s.data) t := by
  unfold reFindall countOcc parseRegex
  rw [parse_plain t.data hplain, scan_lits_replicate t.data ht, List.map_replicate,
    asString_data]

theorem check_vocab_single (t s : String) (ht : t.data ≠ [])
    (hplain : ∀ c ∈ t.data, isPlainChar c = true) :
    check_vocab s [t] = (countOcc t.data s.data == 1) := by
  simp only [check_vocab]
  have hj : joinAlt [t] = t := rfl
  rw [hj, reFindall_plain t s ht hplain]
  rcases hn : countOcc t.data s.data with _ | n
  · simp
  · rcases n with _ | k
    · simp
    · rw [dedup_replicate_succ (k + 1) t]
      simp [List.length_replicate]

theorem reFindall_wordBound_iff (t s : String) (ht : t.data ≠ [])
    (hplain : ∀ c ∈ t.data, isPlainChar c = true) :
    (((reFindall (wordBoundPat t) s).length != 0) = true ↔
      hasWholeWord t.data s.data = true) := by
  rw [bne_iff_ne]
  have hiff := scan_wb_iff t.data ht hplain s.data.length s.data [] (le_refl _)
  constructor
  · intro h
    have hscan : scanAllGo (parseRegex (wordBoundPat t)) s.data.length none s.data ≠ [] := by
      intro hc
      apply h
      unfold reFindall
      rw [hc]
      rfl
    rw [parse_wordBoundPat t hplain] at hscan
    obtain ⟨u, v, huv, hsplit⟩ := hiff.mp hscan
    rw [List.nil_append] at hsplit
    exact (hasWholeWord_iff_split t.data s.data).mpr ⟨u, v, huv, hsplit⟩
  · intro h
    obtain ⟨u, v, huv, hsplit⟩ := (hasWholeWord_iff_split t.data s.data).mp h
    have hscan : scanAllGo [RAtom.wordB :: (litBranch t.data ++ [RAtom.wordB])]
        s.data.length (([] : List Char).getLast?) s.data ≠ [] :=
      hiff.mpr ⟨u, v, huv, by rw [List.nil_append]; exact hsplit⟩
    intro hc
    apply hscan
    have hflen : (reFindall (wordBoundPat t) s).length = 0 := by
      rw [hc]
    unfold reFindall at hflen
    rw [parse_wordBoundPat t hplain] at hflen
    rw [List.length_map] at hflen
    exact List.length_eq_zero.mp hflen

/-- Counterexample to C2 as stated: on the sentence `"the cat category"`
with vocabulary `["cat"]`, the term has exactly one whole-word occurrence
(the claimed admissibility rule accepts), yet the code rejects, because
`check_vocab` counts the unanchored regex occurrences — two here, the word
`cat` and the prefix of `category`. -/
theorem c2_strict_check_counterexample :
    claimStrictAdmissible "the cat category" ["cat"] = true ∧
    admissibleStrict "the cat category" ["cat"] = false := by decide

/-- C2 (amended): in strict (default) mode, for a non-empty plain
alphanumeric vocabulary term `t`, the constraint check admits a decoded
sentence exactly when `t` occurs as a whole-word match and the unanchored
(substring) occurrences of `t` number exactly one — the duplicate-occurrence
count is over substring matches, not whole-word matches; relaxed mode admits
exactly when the substring occurrences number exactly one.  In particular
`check("the cat sat", ["cat"])` is admissible, `check("the cat and cat",
["cat"])` is inadmissible, and `check("the category", ["cat"])` is
inadmissible in strict mode but admissible in relaxed mode. -/
theorem c2_strict_check (t s : String) (ht : t.data ≠ [])
    (hplain : ∀ c ∈ t.data, isPlainChar c = true) :
    (admissibleStrict s [t] = true ↔
      (hasWholeWord t.data s.data = true ∧ countOcc t.data s.data = 1)) ∧
    (admissibleRelaxed s [t] = true ↔ countOcc t.data s.data = 1) ∧
    (admissibleStrict "the cat sat" ["cat"] = true ∧
     admissibleStrict "the cat and cat" ["cat"] = false ∧
     admissibleStrict "the category" ["cat"] = false ∧
     admissibleRelaxed "the category" ["cat"] = true) := by
  refine ⟨?_, ?_, by decide, by decide, by decide, by decide⟩
  · unfold admissibleStrict
    rw [Bool.and_eq_true, List.all_cons, List.all_nil, Bool.and_true]
    rw [check_vocab_single t s ht hplain]
    rw [reFindall_wordBound_iff t s ht hplain]
    constructor
    · rintro ⟨h1, h2⟩
      exact ⟨h1, beq_iff_eq.mp h2⟩
    · rintro ⟨h1, h2⟩
      exact ⟨h1, beq_iff_eq.mpr h2⟩
  · unfold admissibleRelaxed
    rw [Bool.and_eq_true, List.all_cons, List.all_nil, Bool.and_true]
    rw [check_vocab_single t s ht hplain]
    constructor
    · rintro ⟨_, h2⟩
      exact beq_iff_eq.mp h2
    · intro h2
      refine ⟨?_, beq_iff_eq.mpr h2⟩
      rw [bne_iff_ne]
      rw [reFindall_plain t s ht hplain, List.length_replicate]
      omega

/-- Witness for C2 (amended) at the plain term `"cat"` and the sentence
`"the cat sat"`. -/
theorem c2_strict_check_witness :
    hasWholeWord "cat".data "the cat sat".data = true ∧
    countOcc "cat".data "the cat sat".data = 1 ∧
    admissibleStrict "the cat sat" ["cat"] = true ∧
    admissibleRelaxed "the category" ["cat"] = true := by
  have h := c2_strict_check "cat" "the cat sat" (by decide) (by decide)
  have hc : countOcc "cat".data "the cat sat".data = 1 := by decide
  exact ⟨by decide, hc, h.1.mpr ⟨by decide, hc⟩, h.2.2.2.2.2⟩
